import Mathlib

/-!
Verification of the `knowledge_tools` document-ingestion core.

Python strings are modelled as lists of characters (`Str`), Python ints
holding sizes and indices as `Nat`, fallible operations as `Except`/`Option`.
Each definition is a direct transcription of the corresponding Python
function; doc comments name the source location.
-/

set_option maxRecDepth 100000

namespace KnowledgeTools

/-- Python strings, modelled as lists of characters. -/
abbrev Str := List Char

/-- The whitespace characters stripped by Python's `str.strip` / `str.rstrip`
(the ASCII ones; the source files only ever strip ASCII whitespace). -/
def isPySpace (c : Char) : Bool :=
  c = ' ' || c = '\t' || c = '\n' || c = '\r' || c = '\x0b' || c = '\x0c'

/-- Python `str.lstrip()`. -/
def lstrip (s : Str) : Str := s.dropWhile isPySpace

/-- Python `str.rstrip()`. -/
def rstrip (s : Str) : Str := (s.reverse.dropWhile isPySpace).reverse

/-- Python `str.strip()`. -/
def strip (s : Str) : Str := rstrip (lstrip s)

/-- Source `modules/text_read.py`, class `TextChunkData`: one chunk produced
by `extract_text_to_chunks`. -/
structure TextChunkData where
  chunk_id : Nat
  line_start : Nat
  line_end : Nat
  text : Str
  char_count : Nat
deriving DecidableEq, Repr

/-- The mutable loop state of `extract_text_to_chunks`
(`chunks`, `chunk_id`, `current_chunk`, `line_start`). -/
structure ChunkState where
  chunks : List TextChunkData
  chunk_id : Nat
  current : Str
  line_start : Nat
deriving DecidableEq, Repr

/-- The chunk record appended by `extract_text_to_chunks` at a flush:
`TextChunkData(chunk_id, line_start, line_end, current_chunk.rstrip(),
len(current_chunk))`, from `modules/text_read.py` lines 269–275 and 285–291. -/
def flushChunk (st : ChunkState) (line_end : Nat) : TextChunkData :=
  ⟨st.chunk_id, st.line_start, line_end, rstrip st.current, st.current.length⟩

/-- One iteration of the `for line_idx, line in enumerate(lines)` loop of
`extract_text_to_chunks`, from `modules/text_read.py` lines 264–281:
if appending `line + "\n"` would push `current_chunk` past `chunk_size`
and `current_chunk` is non-empty, flush it (bounds `line_start..line_idx-1`),
reset, then append the current line to the (possibly fresh) accumulator. -/
def stepLine (chunk_size : Nat) (st : ChunkState) (line_idx : Nat) (line : Str) :
    ChunkState :=
  let line_text := line ++ ['\n']
  let st1 :=
    if st.current.length + line_text.length > chunk_size ∧ st.current ≠ [] then
      { chunks := st.chunks ++ [flushChunk st (line_idx - 1)],
        chunk_id := st.chunk_id + 1,
        current := [],
        line_start := line_idx }
    else st
  { st1 with current := st1.current ++ line_text }

/-- The whole `for` loop of `extract_text_to_chunks`, processing the lines
from index `idx` on. -/
def chunkLoop (chunk_size : Nat) : Nat → List Str → ChunkState → ChunkState
  | _, [], st => st
  | idx, line :: rest, st =>
      chunkLoop chunk_size (idx + 1) rest (stepLine chunk_size st idx line)

/-- The initial loop state of `extract_text_to_chunks`
(`chunks = []`, `chunk_id = 0`, `current_chunk = ""`, `line_start = 0`). -/
def initChunkState : ChunkState := ⟨[], 0, [], 0⟩

/-- Source `modules/text_read.py` lines 239–293, `extract_text_to_chunks`,
modelled from the list of lines of the file
(`text_data.content.splitlines()`) on: run the fold over all lines, then
flush the remainder as a final chunk with `line_end = len(lines) - 1` if
`current_chunk.strip()` is non-empty. -/
def extract_text_to_chunks (lines : List Str) (chunk_size : Nat) :
    List TextChunkData :=
  let st := chunkLoop chunk_size 0 lines initChunkState
  if strip st.current ≠ [] then
    st.chunks ++ [flushChunk st (lines.length - 1)]
  else
    st.chunks

/-! Auxiliary notions for reasoning about the chunker. -/

/-- The accumulator text obtained by folding a list of lines, each line
contributing its text followed by one newline (the `current_chunk += line +
"\n"` discipline of `extract_text_to_chunks`). -/
def joinLines (ls : List Str) : Str :=
  (ls.map fun l => l ++ ['\n']).flatten

/-- The lines with indices in `[a, b)`. -/
def lineSlice (lines : List Str) (a b : Nat) : List Str :=
  (lines.drop a).take (b - a)

/-- The accumulator from which chunk `c` was flushed: the lines of its
`[line_start, line_end]` range, each followed by a newline. -/
def chunkText (lines : List Str) (c : TextChunkData) : Str :=
  joinLines (lineSlice lines c.line_start (c.line_end + 1))

/-- Per-chunk facts maintained by the chunker loop: the chunk's `text` is
the trailing-whitespace-stripped accumulator of its line range, its
`char_count` is the unstripped accumulator's length, and a chunk spanning
at least two lines fits the budget. -/
def GoodChunk (B : Nat) (lines : List Str) (c : TextChunkData) : Prop :=
  c.text = rstrip (chunkText lines c) ∧
  c.char_count = (chunkText lines c).length ∧
  (c.line_start < c.line_end → c.char_count ≤ B)

/-- The chunk list `cs` covers the line-index range `[a, b)` contiguously
(each chunk's `line_start` is the previous chunk's `line_end + 1`), with
consecutive `chunk_id`s starting at `k`. -/
def chainFrom (k a : Nat) : List TextChunkData → Nat → Prop
  | [], b => a = b
  | c :: cs, b =>
      c.chunk_id = k ∧ c.line_start = a ∧ a ≤ c.line_end ∧
      chainFrom (k + 1) (c.line_end + 1) cs b

/-- The loop invariant of `extract_text_to_chunks` after the first `idx`
lines have been processed. -/
structure ChunkInv (B : Nat) (lines : List Str) (idx : Nat) (st : ChunkState) :
    Prop where
  chain : chainFrom 0 0 st.chunks st.line_start
  ids : st.chunk_id = st.chunks.length
  start_le : st.line_start ≤ idx
  idx_le : idx ≤ lines.length
  cur : st.current = joinLines (lineSlice lines st.line_start idx)
  small : st.line_start + 2 ≤ idx → st.current.length ≤ B
  good : ∀ c ∈ st.chunks, GoodChunk B lines c

/-! The Chunker as worded by the spec (§4.3), used to compare the source's
fold against the specification: the spec's state keeps the accumulator and
the `source_ref` bounds (first and last folded unit) and emits chunks whose
bounds are `first..last`. -/

/-- Chunk as described by the spec: emission-order id and the bounds of the
first and last folded unit. -/
structure SpecChunk where
  chunk_id : Nat
  first : Nat
  last : Nat
deriving DecidableEq, Repr

/-- Spec-side chunker state: emitted chunks, next id, accumulator, and the
bounds of the units folded so far (`none` iff the accumulator is empty). -/
structure SpecState where
  emitted : List SpecChunk
  nextId : Nat
  acc : Str
  bounds : Option (Nat × Nat)
deriving DecidableEq, Repr

/-- One step of the spec's Chunker fold (spec §4.3): if appending the
unit's text plus a one-character unit separator would push the
accumulator's length past the budget and the accumulator is non-empty,
flush a chunk with bounds `first..last`, reset, and begin the new
accumulator with the current unit; otherwise append the unit. -/
def specStep (B : Nat) (st : SpecState) (idx : Nat) (unit : Str) : SpecState :=
  if st.acc.length + (unit.length + 1) > B ∧ st.acc ≠ [] then
    match st.bounds with
    | some (f, l) =>
        { emitted := st.emitted ++ [⟨st.nextId, f, l⟩],
          nextId := st.nextId + 1,
          acc := unit ++ ['\n'],
          bounds := some (idx, idx) }
    | none => st
  else
    match st.bounds with
    | none => { st with acc := st.acc ++ (unit ++ ['\n']), bounds := some (idx, idx) }
    | some (f, _) => { st with acc := st.acc ++ (unit ++ ['\n']), bounds := some (f, idx) }

/-- The spec's Chunker fold over the units from index `idx` on. -/
def specFold (B : Nat) : Nat → List Str → SpecState → SpecState
  | _, [], st => st
  | idx, unit :: rest, st => specFold B (idx + 1) rest (specStep B st idx unit)

/-- Initial spec-side chunker state. -/
def initSpecState : SpecState := ⟨[], 0, [], none⟩

/-- Projection of a source-side chunk to its emission id and line bounds. -/
def chunkBounds (c : TextChunkData) : Nat × Nat × Nat :=
  (c.chunk_id, c.line_start, c.line_end)

/-- Projection of a spec-side chunk to its emission id and unit bounds. -/
def specBounds (c : SpecChunk) : Nat × Nat × Nat :=
  (c.chunk_id, c.first, c.last)

/-! Queue store (`routers/queue.py` together with the
`file_processing_queue` table). -/

/-- Queue item states (spec §4.4; the `status` column values used by
`routers/queue.py`). -/
inductive QStatus
  | PENDING
  | PROCESSING
  | COMPLETED
  | FAILED
deriving DecidableEq, Repr

/-- One row of the `file_processing_queue` table, with the columns the
claims are about (`error_message`, `file_hash`, `metadata` and `updated_at`
are set to constants by the code paths considered and are omitted). -/
structure QueueRow where
  id : Nat
  file_path : String
  status : QStatus
  priority : Int
  retry_count : Nat
  created_at : Nat
  started_at : Option Nat
  completed_at : Option Nat
deriving DecidableEq, Repr

/-- A state is non-terminal when it is PENDING or PROCESSING (spec §3). -/
def nonTerminal (s : QStatus) : Bool :=
  s = QStatus.PENDING ∨ s = QStatus.PROCESSING

/-- Modelled from the spec: the uniqueness constraint of the
`file_processing_queue` table. The schema file
(`sql/file_processing_queue.sql`, read by `main.py`) is not under `src/`;
spec §3 states the invariant `file_path` is unique among non-terminal
items, so the insert of `enqueue` violates the constraint exactly when a
row with the same path exists in a non-terminal state. -/
def violatesUnique (db : List QueueRow) (path : String) : Bool :=
  db.any fun r => r.file_path = path ∧ nonTerminal r.status

/-- A fresh row id for an insert (`cursor.lastrowid` of an AUTOINCREMENT
key): one more than the largest id in the table. -/
def nextRowId (db : List QueueRow) : Nat :=
  (db.map (fun r => r.id)).foldr max 0 + 1

/-- Errors surfaced by the queue router. -/
inductive QueueError
  | DuplicateError
deriving DecidableEq, Repr

/-- Source `routers/queue.py` lines 63–97, `enqueue`: insert a new row
`(file_path, "PENDING", priority, 0, ..., now, None, None)`; an
`sqlite3.IntegrityError` raised by the constraint is reported as the
duplicate-registration error. Returns the new table and the new row id. -/
def enqueue (db : List QueueRow) (path : String) (prio : Int) (now : Nat) :
    Except QueueError (List QueueRow × Nat) :=
  if violatesUnique db path then
    Except.error QueueError.DuplicateError
  else
    let rid := nextRowId db
    Except.ok (db ++ [⟨rid, path, QStatus.PENDING, prio, 0, now, none, none⟩], rid)

/-- Row `r` strictly precedes row `s` under the claiming order
(priority descending, `created_at` ascending). -/
def betterRow (r s : QueueRow) : Bool :=
  r.priority > s.priority ∨ (r.priority = s.priority ∧ r.created_at < s.created_at)

/-- Fold selecting the best row, keeping the earlier row on ties. -/
def pickBestAux (b : QueueRow) : List QueueRow → QueueRow
  | [] => b
  | r :: rs => pickBestAux (if betterRow r b then r else b) rs

/-- The first row under (priority descending, `created_at` ascending),
ties broken by list position. -/
def pickBest : List QueueRow → Option QueueRow
  | [] => none
  | r :: rs => some (pickBestAux r rs)

/-- A row is PENDING. -/
def isPending (r : QueueRow) : Bool :=
  r.status = QStatus.PENDING

/-- The single-row conditional update of a claim: set the row with the
picked id to PROCESSING and stamp `started_at`, guarded by the row still
being PENDING. -/
def claimUpdate (now rid : Nat) (s : QueueRow) : QueueRow :=
  if s.id = rid ∧ s.status = QStatus.PENDING then
    { s with status := QStatus.PROCESSING, started_at := some now }
  else s

/-- Modelled from the spec: `claim_next` (spec §4.4, §4.5, §5). No
claim-next operation exists under `src/` (`routers/queue.py` only lists and
inserts; spec §9 notes the claim-next logic is not shown in the current
implementation): atomically select the first PENDING item under (priority
descending, `created_at` ascending), transition it to PROCESSING via a
single conditional update guarded by the current state, stamp `started_at`,
and return it; return `none` when no PENDING item exists. Atomicity is
modelled by the whole operation being one transition function on the
table. -/
def claim_next (db : List QueueRow) (now : Nat) :
    Option QueueRow × List QueueRow :=
  match pickBest (db.filter isPending) with
  | none => (none, db)
  | some r =>
      (some { r with status := QStatus.PROCESSING, started_at := some now },
       db.map (claimUpdate now r.id))

/-- N successive atomic claims (any concurrent execution of N workers is
some sequence of N atomic `claim_next` steps): returns the claimed items in
claim order and the final table. -/
def claimMany (now : Nat) : Nat → List QueueRow → List QueueRow × List QueueRow
  | 0, db => ([], db)
  | n + 1, db =>
      match claim_next db now with
      | (none, _) => ([], db)
      | (some r, db1) =>
          let rec_result := claimMany now n db1
          (r :: rec_result.1, rec_result.2)

/-- Number of PENDING rows. -/
def pendingCount (db : List QueueRow) : Nat :=
  (db.filter isPending).length

/-! Text-file reading and encoding detection (`modules/text_read.py`). -/

/-- The candidate encodings tried by `_try_encodings`
(`modules/text_read.py` line 91). -/
inductive Enc
  | utf8
  | cp932
  | shift_jis
  | latin1
deriving DecidableEq, Repr

/-- The prioritized candidate list `['utf-8', 'cp932', 'shift_jis',
'latin-1']`. -/
def encodingCandidates : List Enc :=
  [Enc.utf8, Enc.cp932, Enc.shift_jis, Enc.latin1]

/-- Source `modules/text_read.py` lines 81–102, `_try_encodings`, over the
trial list: return the first encoding whose full-file decode succeeds
(`open(...).read()` raising no `UnicodeDecodeError`); if every candidate
fails, return `utf-8` (the error then surfaces on the later read). The
parameter `decode` models `open(file_path, 'r', encoding=e).read()` for the
file at hand: `some content` on success, `none` on a decode error. -/
def tryEncodingsFrom (decode : Enc → Option Str) : List Enc → Enc
  | [] => Enc.utf8
  | e :: rest => if (decode e).isSome then e else tryEncodingsFrom decode rest

/-- `_try_encodings` applied to the full candidate list. -/
def tryEncodings (decode : Enc → Option Str) : Enc :=
  tryEncodingsFrom decode encodingCandidates

/-- Failure of `read_text_file`: the `ValueError("ファイルをテキストとして
読み込めません")` raised when the detected encoding cannot decode the file
(`modules/text_read.py` line 179). -/
inductive TextReadError
  | encodingError
deriving DecidableEq, Repr

/-- Source `modules/text_read.py` lines 136–198, `read_text_file`, on the
path the claims are about (`encoding=None`, `chardet` unavailable so
`detect_encoding` falls back to `_try_encodings`): detect the encoding by
trial decoding, then read the file with it; a decode failure raises the
encoding error. Returns the detected encoding and the content. -/
def read_text_file (decode : Enc → Option Str) : Except TextReadError (Enc × Str) :=
  let detected := tryEncodings decode
  match decode detected with
  | some content => Except.ok (detected, content)
  | none => Except.error TextReadError.encodingError

/-! Spreadsheet adapter (`modules/excel_read.py`). -/

/-- Python truthiness of `cell_value.strip()`: the string has a
non-whitespace character. -/
def notBlank (c : Str) : Bool :=
  ¬ (strip c).isEmpty

/-- Python `sep.join(parts)`. -/
def joinWith (sep : Str) : List Str → Str
  | [] => []
  | [s] => s
  | s :: rest => s ++ sep ++ joinWith sep rest

/-- Source `modules/excel_read.py`, class `ExcelRowData`: one emitted row
record (the per-column `data` dictionary is not modelled; the claims are
about `row_index` and `text`). -/
structure ExcelRowData where
  row_index : Nat
  text : Str
deriving DecidableEq, Repr

/-- Source `modules/excel_read.py` lines 104–161,
`_extract_dataframe_text`, the `rows_data` loop over a sheet's rows (each
row a list of its cell values in column order, after `fillna("")`): keep
the non-blank cell values of each row; when at least one remains, emit a
row record whose text joins them with `" "`; a fully blank row emits
nothing. -/
def extract_dataframe_rows : Nat → List (List Str) → List ExcelRowData
  | _, [] => []
  | idx, row :: rest =>
      let row_texts := row.filter notBlank
      if row_texts.isEmpty then extract_dataframe_rows (idx + 1) rest
      else ⟨idx, joinWith [' '] row_texts⟩ :: extract_dataframe_rows (idx + 1) rest

/-! Word-document adapter (`modules/word_read.py`). -/

/-- Source `modules/word_read.py`, class `WordParagraphData` (the `style`
and `alignment` fields are presentation metadata and are not modelled). -/
structure WordParagraphData where
  paragraph_index : Nat
  text : Str
deriving DecidableEq, Repr

/-- Source `modules/word_read.py`, class `WordTableRowData`: a kept table
row with its (stripped) cell texts. -/
structure WordTableRowData where
  row_index : Nat
  cells : List Str
deriving DecidableEq, Repr

/-- Source `modules/word_read.py`, class `WordTableData` (the derived
`row_count` and `column_count` fields are not modelled). -/
structure WordTableData where
  table_index : Nat
  rows : List WordTableRowData
  full_text : Str
deriving DecidableEq, Repr

/-- Source `modules/word_read.py`, class `WordFileData`, the fields the
claims are about (counts, `word_count` and extraction timestamp omitted). -/
structure WordFileData where
  paragraphs : List WordParagraphData
  tables : List WordTableData
  full_text : Str
deriving DecidableEq, Repr

/-- A Word document as seen through `python-docx`: the paragraph texts in
document order, and the tables, each a list of rows, each row its cell
texts. -/
structure WordDoc where
  paragraphs : List Str
  tables : List (List (List Str))
deriving DecidableEq, Repr

/-- `cells_text` of one table row (`modules/word_read.py` lines 115–116):
strip every cell, keep the non-empty ones, join with `" | "`. -/
def cellsText (row : List Str) : Str :=
  joinWith [' ', '|', ' '] ((row.map strip).filter fun c => ¬ c.isEmpty)

/-- The `cells_text` values of the kept (non-empty) rows of one table,
in row order (`table_full_text` in the source). -/
def tableRowTexts : List (List Str) → List Str
  | [] => []
  | row :: rest =>
      if (cellsText row).isEmpty then tableRowTexts rest
      else cellsText row :: tableRowTexts rest

/-- The paragraph loop of `read_word_file` (`modules/word_read.py` lines
95–104): one record per paragraph whose stripped text is non-empty,
`paragraph_index` the document position. -/
def extractParagraphs : Nat → List Str → List WordParagraphData
  | _, [] => []
  | idx, p :: rest =>
      if (strip p).isEmpty then extractParagraphs (idx + 1) rest
      else ⟨idx, strip p⟩ :: extractParagraphs (idx + 1) rest

/-- The row loop over one table (`modules/word_read.py` lines 114–123):
keep a row iff its `cells_text` is non-empty, recording the stripped
cells. -/
def extractTableRows : Nat → List (List Str) → List WordTableRowData
  | _, [] => []
  | ridx, row :: rest =>
      if (cellsText row).isEmpty then extractTableRows (ridx + 1) rest
      else ⟨ridx, row.map strip⟩ :: extractTableRows (ridx + 1) rest

/-- The table loop of `read_word_file` (`modules/word_read.py` lines
110–134): keep a table iff it has at least one kept row; its `full_text`
joins the kept rows' texts with `" | "`. -/
def extractTables : Nat → List (List (List Str)) → List WordTableData
  | _, [] => []
  | tidx, tbl :: rest =>
      let rows := extractTableRows 0 tbl
      if rows.isEmpty then extractTables (tidx + 1) rest
      else ⟨tidx, rows, joinWith [' ', '|', ' '] (tableRowTexts tbl)⟩ ::
        extractTables (tidx + 1) rest

/-- Source `modules/word_read.py` lines 60–152, `read_word_file`: the
non-empty paragraphs, then the tables with their non-empty rows; the
`full_text` joins the paragraph texts followed by the per-table texts with
newlines. -/
def read_word_file (doc : WordDoc) : WordFileData :=
  let ps := extractParagraphs 0 doc.paragraphs
  let ts := extractTables 0 doc.tables
  { paragraphs := ps,
    tables := ts,
    full_text := joinWith ['\n'] (ps.map (fun p => p.text) ++ ts.map (fun t => t.full_text)) }

/-- One unit of the Word adapter's emitted sequence: a paragraph unit or a
table-row unit (spec §4.2, Word-document variant). -/
inductive WordUnit
  | para (paragraph_index : Nat) (text : Str)
  | tableRow (table_index row_index : Nat) (text : Str)
deriving DecidableEq, Repr

/-- The unit sequence the Word adapter's output carries: one unit per kept
paragraph, in order, followed by one unit per kept table row, tables in
order and rows in order within each table, a row unit's text joining its
non-blank cells with `" | "`. -/
def wordUnits (out : WordFileData) : List WordUnit :=
  out.paragraphs.map (fun p => WordUnit.para p.paragraph_index p.text) ++
  (out.tables.map fun t =>
    t.rows.map fun r =>
      WordUnit.tableRow t.table_index r.row_index
        (joinWith [' ', '|', ' '] (r.cells.filter fun c => ¬ c.isEmpty))).flatten

/-! File metadata (`modules/file_read.py`). -/

/-- A filesystem node: a regular file with its byte content, or a
directory. A filesystem maps paths to nodes (`none`: the path does not
exist). -/
inductive FsNode
  | file (content : List Nat)
  | dir
deriving DecidableEq, Repr

/-- Failures of `get_file_metadata`: the `FileNotFoundError` when the path
is absent, the `ValueError("ファイルではありません")` when the path exists
but is not a regular file. -/
inductive MetaError
  | notFound
  | notAFile
deriving DecidableEq, Repr

/-- The blocks `f.read(4096)` yields: the content cut into pieces of
`n + 1` bytes (the last may be shorter). -/
def chunksOfPos (n : Nat) : List Nat → List (List Nat)
  | [] => []
  | b :: rest => (b :: rest.take n) :: chunksOfPos n (rest.drop n)
termination_by l => l.length
decreasing_by simp [List.length_drop]; omega

/-- `hash_obj.update(chunk)`: absorb one block byte by byte. -/
def updateBlock {St : Type} (updByte : St → Nat → St) (h : St) (blk : List Nat) : St :=
  blk.foldl updByte h

/-- Source `modules/file_read.py` lines 106–124, `calculate_file_hash`:
stream the file in 4096-byte blocks through the digest and return
`hash_obj.hexdigest()`. The digest (`hashlib`, MD5 by default) is external
to the repository and is abstracted by its initial state, its byte-level
absorb function and its finalization. -/
def calculate_file_hash {St D : Type} (init : St) (updByte : St → Nat → St)
    (hexdigest : St → D) (content : List Nat) : D :=
  hexdigest ((chunksOfPos 4095 content).foldl (updateBlock updByte) init)

/-- The fields of `FileMetadata` the claims are about (`file_hash` and the
size; names, timestamps, MIME type and owner are environment lookups). -/
structure FileMetadataM (D : Type) where
  file_hash : D
  file_size : Nat
deriving DecidableEq, Repr

/-- Source `modules/file_read.py` lines 52–103, `get_file_metadata`: raise
not-found when the path does not exist, not-a-file when it is not a regular
file, otherwise build the metadata record with the streamed content hash.
The function only reads the filesystem (modelled by it being a pure
function of `fs`). -/
def get_file_metadata {St D : Type} (init : St) (updByte : St → Nat → St)
    (hexdigest : St → D) (fs : String → Option FsNode) (path : String) :
    Except MetaError (FileMetadataM D) :=
  match fs path with
  | none => Except.error MetaError.notFound
  | some FsNode.dir => Except.error MetaError.notAFile
  | some (FsNode.file content) =>
      Except.ok ⟨calculate_file_hash init updByte hexdigest content, content.length⟩

/-! Helper lemmas about stripped strings, accumulators and line slices. -/

theorem dropWhile_length_le (p : Char → Bool) (l : List Char) :
    (l.dropWhile p).length ≤ l.length := by
  induction l with
  | nil => simp
  | cons a l ih =>
      rw [List.dropWhile_cons]
      split
      · exact le_trans ih (by simp)
      · simp

theorem rstrip_length_le (s : Str) : (rstrip s).length ≤ s.length := by
  have h := dropWhile_length_le isPySpace s.reverse
  simpa [rstrip] using h

theorem rstrip_concat_space (s : Str) (c : Char) (h : isPySpace c) :
    rstrip (s ++ [c]) = rstrip s := by
  simp [rstrip, List.dropWhile_cons, h]

theorem rstrip_length_lt (s : Str) (h : s ≠ []) (hw : isPySpace (s.getLast h)) :
    (rstrip s).length < s.length := by
  have hsplit := List.dropLast_append_getLast h
  calc (rstrip s).length
      = (rstrip (s.dropLast ++ [s.getLast h])).length := by rw [hsplit]
    _ = (rstrip s.dropLast).length := by rw [rstrip_concat_space _ _ hw]
    _ ≤ s.dropLast.length := rstrip_length_le _
    _ < s.length := by
        rw [← hsplit]; simp

theorem strip_nil : strip [] = [] := rfl

theorem strip_ne_nil_imp (s : Str) (h : strip s ≠ []) : s ≠ [] := by
  intro he; subst he; exact h strip_nil

theorem joinLines_nil : joinLines [] = [] := rfl

theorem joinLines_cons (l : Str) (ls : List Str) :
    joinLines (l :: ls) = (l ++ ['\n']) ++ joinLines ls := by
  simp [joinLines]

theorem joinLines_append (xs ys : List Str) :
    joinLines (xs ++ ys) = joinLines xs ++ joinLines ys := by
  simp [joinLines]

theorem joinLines_singleton (l : Str) : joinLines [l] = l ++ ['\n'] := by
  simp [joinLines]

theorem joinLines_ne_nil (ls : List Str) (h : ls ≠ []) : joinLines ls ≠ [] := by
  cases ls with
  | nil => exact absurd rfl h
  | cons l t => simp [joinLines_cons]

theorem joinLines_length (ls : List Str) :
    (joinLines ls).length = (ls.map fun l => l.length + 1).sum := by
  induction ls with
  | nil => simp [joinLines]
  | cons l t ih => simp [joinLines_cons, ih]; omega

theorem length_le_joinLines (ls : List Str) (l : Str) (h : l ∈ ls) :
    l.length + 1 ≤ (joinLines ls).length := by
  induction ls with
  | nil => cases h
  | cons a t ih =>
      rw [joinLines_cons]
      rcases List.mem_cons.mp h with rfl | hmem
      · simp
      · have := ih hmem
        simp only [List.length_append, List.length_cons]
        omega

theorem lineSlice_self (lines : List Str) (a : Nat) : lineSlice lines a a = [] := by
  simp [lineSlice]

theorem lineSlice_succ (lines : List Str) (a idx : Nat) (l : Str) (rest : List Str)
    (ha : a ≤ idx) (h : lines.drop idx = l :: rest) :
    lineSlice lines a (idx + 1) = lineSlice lines a idx ++ [l] := by
  unfold lineSlice
  have h1 : idx + 1 - a = (idx - a) + 1 := by omega
  have h2 : a + (idx - a) = idx := by omega
  rw [h1, List.take_add, List.drop_drop, h2, h]
  simp

theorem lineSlice_single (lines : List Str) (idx : Nat) (l : Str) (rest : List Str)
    (h : lines.drop idx = l :: rest) :
    lineSlice lines idx (idx + 1) = [l] := by
  unfold lineSlice
  have h1 : idx + 1 - idx = 1 := by omega
  rw [h1, h]
  simp

theorem lineSlice_ne_nil (lines : List Str) (a b : Nat) (hab : a < b)
    (hb : a < lines.length) : lineSlice lines a b ≠ [] := by
  simp only [lineSlice, ne_eq, List.take_eq_nil_iff, List.drop_eq_nil_iff]
  omega

theorem lineSlice_get_mem (lines : List Str) (a i e : Nat) (hai : a ≤ i)
    (hie : i ≤ e) (hlt : i < lines.length) :
    lines.get ⟨i, hlt⟩ ∈ lineSlice lines a (e + 1) := by
  have hidx : (lineSlice lines a (e + 1))[i - a]? = some (lines.get ⟨i, hlt⟩) := by
    unfold lineSlice
    rw [List.getElem?_take, if_pos (by omega), List.getElem?_drop]
    rw [show a + (i - a) = i from by omega]
    simp [List.getElem?_eq_getElem hlt]
  exact List.getElem?_mem hidx

/-! Lemmas about contiguous chunk chains. -/

theorem chainFrom_le (k a : Nat) (cs : List TextChunkData) (b : Nat)
    (h : chainFrom k a cs b) : a ≤ b := by
  induction cs generalizing k a with
  | nil => exact le_of_eq h
  | cons d cs ih =>
      obtain ⟨-, -, h3, h4⟩ := h
      have := ih _ _ h4
      omega

theorem chainFrom_append (k a : Nat) (cs : List TextChunkData) (b : Nat)
    (c : TextChunkData) (h : chainFrom k a cs b) (hid : c.chunk_id = k + cs.length)
    (hs : c.line_start = b) (hle : b ≤ c.line_end) :
    chainFrom k a (cs ++ [c]) (c.line_end + 1) := by
  induction cs generalizing k a with
  | nil =>
      have hab : a = b := h
      subst hab
      exact ⟨by simpa using hid, hs, hs ▸ hle, rfl⟩
  | cons d cs ih =>
      obtain ⟨h1, h2, h3, h4⟩ := h
      exact ⟨h1, h2, h3, ih _ _ h4 (by simp at hid ⊢; omega)⟩

theorem chainFrom_bounds (k a : Nat) (cs : List TextChunkData) (b : Nat)
    (h : chainFrom k a cs b) :
    ∀ c ∈ cs, a ≤ c.line_start ∧ c.line_start ≤ c.line_end ∧ c.line_end < b := by
  induction cs generalizing k a with
  | nil => intro c hc; cases hc
  | cons d cs ih =>
      obtain ⟨-, h2, h3, h4⟩ := h
      intro c hc
      have hb := chainFrom_le _ _ _ _ h4
      rcases List.mem_cons.mp hc with rfl | hmem
      · omega
      · have := ih _ _ h4 c hmem
        omega

theorem chainFrom_cover (k a : Nat) (cs : List TextChunkData) (b : Nat)
    (h : chainFrom k a cs b) :
    ∀ j, a ≤ j → j < b → ∃ c ∈ cs, c.line_start ≤ j ∧ j ≤ c.line_end := by
  induction cs generalizing k a with
  | nil =>
      intro j h1 h2
      have hab : a = b := h
      omega
  | cons d cs ih =>
      obtain ⟨-, h2, h3, h4⟩ := h
      intro j hj1 hj2
      by_cases hj : j ≤ d.line_end
      · exact ⟨d, List.mem_cons_self _ _, by omega, hj⟩
      · obtain ⟨c, hc, hc1, hc2⟩ := ih _ _ h4 j (by omega) hj2
        exact ⟨c, List.mem_cons_of_mem _ hc, hc1, hc2⟩

theorem chainFrom_unique (k a : Nat) (cs : List TextChunkData) (b : Nat)
    (h : chainFrom k a cs b) :
    ∀ j, ∀ c ∈ cs, ∀ d ∈ cs, c.line_start ≤ j → j ≤ c.line_end →
      d.line_start ≤ j → j ≤ d.line_end → c = d := by
  induction cs generalizing k a with
  | nil => intro j c hc; cases hc
  | cons e cs ih =>
      obtain ⟨-, h2, h3, h4⟩ := h
      intro j c hc d hd hc1 hc2 hd1 hd2
      rcases List.mem_cons.mp hc with rfl | hcm <;>
        rcases List.mem_cons.mp hd with rfl | hdm
      · rfl
      · have := (chainFrom_bounds _ _ _ _ h4 d hdm).1
        omega
      · have := (chainFrom_bounds _ _ _ _ h4 c hcm).1
        omega
      · exact ih _ _ h4 j c hcm d hdm hc1 hc2 hd1 hd2

theorem chainFrom_head (k a : Nat) (c : TextChunkData) (cs : List TextChunkData)
    (b : Nat) (h : chainFrom k a (c :: cs) b) : c.line_start = a :=
  h.2.1

theorem chainFrom_getLast (k a : Nat) (cs : List TextChunkData) (b : Nat)
    (h : chainFrom k a cs b) (hne : cs ≠ []) :
    (cs.getLast hne).line_end + 1 = b := by
  induction cs generalizing k a with
  | nil => exact absurd rfl hne
  | cons d cs ih =>
      obtain ⟨-, -, -, h4⟩ := h
      cases cs with
      | nil => simpa [List.getLast] using h4
      | cons e cs =>
          rw [List.getLast_cons (by simp)]
          exact ih _ _ h4 (by simp)

theorem chainFrom_adjacent (k a : Nat) (cs : List TextChunkData) (b : Nat)
    (h : chainFrom k a cs b) :
    ∀ i (h2 : i + 1 < cs.length),
      (cs.get ⟨i + 1, h2⟩).line_start =
        (cs.get ⟨i, Nat.lt_of_succ_lt h2⟩).line_end + 1 := by
  induction cs generalizing k a with
  | nil => intro i h2; simp at h2
  | cons d cs ih =>
      obtain ⟨-, -, -, h4⟩ := h
      intro i h2
      cases i with
      | zero =>
          cases cs with
          | nil => simp at h2
          | cons e cs => exact chainFrom_head _ _ _ _ _ h4
      | succ i =>
          exact ih _ _ h4 i (by simpa using h2)

/-! The chunker loop invariant. -/

theorem stepLine_eq_pos {B : Nat} {st : ChunkState} {idx : Nat} {line : Str}
    (h : st.current.length + (line ++ ['\n']).length > B ∧ st.current ≠ []) :
    stepLine B st idx line =
      ⟨st.chunks ++ [flushChunk st (idx - 1)], st.chunk_id + 1,
        line ++ ['\n'], idx⟩ := by
  simp only [stepLine, if_pos h, List.nil_append]

theorem stepLine_eq_neg {B : Nat} {st : ChunkState} {idx : Nat} {line : Str}
    (h : ¬ (st.current.length + (line ++ ['\n']).length > B ∧ st.current ≠ [])) :
    stepLine B st idx line = { st with current := st.current ++ (line ++ ['\n']) } := by
  simp only [stepLine, if_neg h]

theorem chunkInv_init (B : Nat) (lines : List Str) :
    ChunkInv B lines 0 initChunkState := by
  refine ⟨rfl, rfl, le_refl 0, Nat.zero_le _, ?_, ?_, ?_⟩
  · simp [initChunkState, lineSlice, joinLines]
  · intro h; omega
  · intro c hc; simp [initChunkState] at hc

theorem chunkInv_start_lt {B : Nat} {lines : List Str} {idx : Nat} {st : ChunkState}
    (inv : ChunkInv B lines idx st) (h : st.current ≠ []) :
    st.line_start < idx := by
  rcases Nat.lt_or_ge st.line_start idx with hlt | hge
  · exact hlt
  · exfalso
    have heq : st.line_start = idx := le_antisymm inv.start_le hge
    apply h
    rw [inv.cur, heq, lineSlice_self, joinLines_nil]

theorem chunkInv_current_ne {B : Nat} {lines : List Str} {idx : Nat} {st : ChunkState}
    (inv : ChunkInv B lines idx st) (h : st.line_start < idx) :
    st.current ≠ [] := by
  rw [inv.cur]
  exact joinLines_ne_nil _
    (lineSlice_ne_nil lines _ _ h (lt_of_lt_of_le h inv.idx_le))

theorem stepLine_inv {B : Nat} {lines : List Str} {idx : Nat} {st : ChunkState}
    (inv : ChunkInv B lines idx st) {l : Str} {rest : List Str}
    (hd : lines.drop idx = l :: rest) :
    ChunkInv B lines (idx + 1) (stepLine B st idx l) := by
  have hidx : idx < lines.length := by
    rcases Nat.lt_or_ge idx lines.length with h | h
    · exact h
    · rw [List.drop_eq_nil_of_le h] at hd; cases hd
  by_cases hC : st.current.length + (l ++ ['\n']).length > B ∧ st.current ≠ []
  · have hlt : st.line_start < idx := chunkInv_start_lt inv hC.2
    rw [stepLine_eq_pos hC]
    have hchain :
        chainFrom 0 0 (st.chunks ++ [flushChunk st (idx - 1)])
          ((flushChunk st (idx - 1)).line_end + 1) :=
      chainFrom_append _ _ _ _ _ inv.chain (by simpa [flushChunk] using inv.ids)
        rfl (by simp only [flushChunk]; omega)
    refine ⟨?_, ?_, ?_, ?_, ?_, ?_, ?_⟩
    · have hend : (flushChunk st (idx - 1)).line_end + 1 = idx := by
        simp only [flushChunk]; omega
      rw [hend] at hchain
      exact hchain
    · simp [inv.ids]
    · exact Nat.le_succ idx
    · omega
    · simp only
      rw [lineSlice_single lines idx l rest hd, joinLines_singleton]
    · intro h
      have h2 : idx + 2 ≤ idx + 1 := h
      omega
    · intro c hc
      rcases List.mem_append.mp hc with hold | hnew
      · exact inv.good c hold
      · have hc' : c = flushChunk st (idx - 1) := by simpa using hnew
        subst hc'
        have htext : chunkText lines (flushChunk st (idx - 1)) = st.current := by
          unfold chunkText flushChunk
          simp only
          rw [show idx - 1 + 1 = idx from by omega, ← inv.cur]
        refine ⟨?_, ?_, ?_⟩
        · rw [htext]; rfl
        · rw [htext]; rfl
        · intro hspan
          simp only [flushChunk] at hspan ⊢
          exact inv.small (by omega)
  · rw [stepLine_eq_neg hC]
    refine ⟨inv.chain, inv.ids, le_trans inv.start_le (Nat.le_succ idx), hidx, ?_, ?_, ?_⟩
    · simp only
      rw [inv.cur, lineSlice_succ lines _ idx l rest inv.start_le hd,
        joinLines_append, joinLines_singleton]
    · intro h
      have h2 : st.line_start + 2 ≤ idx + 1 := h
      have hlt : st.line_start < idx := by omega
      have hne := chunkInv_current_ne inv hlt
      have hsmall : st.current.length + (l ++ ['\n']).length ≤ B := by
        rcases Nat.lt_or_ge B (st.current.length + (l ++ ['\n']).length) with hgt | hle
        · exact absurd ⟨hgt, hne⟩ hC
        · exact hle
      show (st.current ++ (l ++ ['\n'])).length ≤ B
      rw [List.length_append]
      exact hsmall
    · exact inv.good

theorem chunkLoop_inv (B : Nat) (lines : List Str) :
    ∀ (rest : List Str) (idx : Nat) (st : ChunkState),
      ChunkInv B lines idx st → lines.drop idx = rest →
      ChunkInv B lines lines.length (chunkLoop B idx rest st) := by
  intro rest
  induction rest with
  | nil =>
      intro idx st inv hd
      have hlen : lines.length ≤ idx := by
        rcases Nat.lt_or_ge idx lines.length with h | h
        · exfalso
          have : lines.drop idx ≠ [] := by
            simp [List.drop_eq_nil_iff]; omega
          exact this hd
        · exact h
      have heq : idx = lines.length := le_antisymm inv.idx_le hlen
      subst heq
      exact inv
  | cons l rest ih =>
      intro idx st inv hd
      have hstep := stepLine_inv inv hd
      have hd' : lines.drop (idx + 1) = rest := by
        rw [← List.drop_drop, hd]
        simp
      exact ih (idx + 1) _ hstep hd'

theorem extract_eq_of_rem (lines : List Str) (B : Nat)
    (h : strip (chunkLoop B 0 lines initChunkState).current ≠ []) :
    extract_text_to_chunks lines B =
      (chunkLoop B 0 lines initChunkState).chunks ++
        [flushChunk (chunkLoop B 0 lines initChunkState) (lines.length - 1)] := by
  simp only [extract_text_to_chunks, if_pos h]

theorem extract_eq_of_no_rem (lines : List Str) (B : Nat)
    (h : ¬ strip (chunkLoop B 0 lines initChunkState).current ≠ []) :
    extract_text_to_chunks lines B = (chunkLoop B 0 lines initChunkState).chunks := by
  simp only [extract_text_to_chunks, if_neg h]

theorem chainFrom_head_start (k a : Nat) (cs : List TextChunkData) (b : Nat)
    (h : chainFrom k a cs b) (hne : cs ≠ []) : (cs.head hne).line_start = a := by
  cases cs with
  | nil => exact absurd rfl hne
  | cons c cs => exact chainFrom_head _ _ _ _ _ h

theorem extract_inv (lines : List Str) (B : Nat) :
    ChunkInv B lines lines.length (chunkLoop B 0 lines initChunkState) :=
  chunkLoop_inv B lines lines 0 initChunkState (chunkInv_init B lines) rfl

theorem extract_good (lines : List Str) (B : Nat) :
    ∀ c ∈ extract_text_to_chunks lines B, GoodChunk B lines c := by
  have inv := extract_inv lines B
  by_cases hrem : strip (chunkLoop B 0 lines initChunkState).current ≠ []
  · rw [extract_eq_of_rem lines B hrem]
    intro c hc
    rcases List.mem_append.mp hc with hold | hnew
    · exact inv.good c hold
    · have hcur : (chunkLoop B 0 lines initChunkState).current ≠ [] :=
        strip_ne_nil_imp _ hrem
      have hlt := chunkInv_start_lt inv hcur
      have hc' : c = flushChunk (chunkLoop B 0 lines initChunkState)
          (lines.length - 1) := by simpa using hnew
      subst hc'
      have htext :
          chunkText lines (flushChunk (chunkLoop B 0 lines initChunkState)
            (lines.length - 1)) = (chunkLoop B 0 lines initChunkState).current := by
        unfold chunkText flushChunk
        simp only
        rw [show lines.length - 1 + 1 = lines.length from by omega, ← inv.cur]
      refine ⟨?_, ?_, ?_⟩
      · rw [htext]; rfl
      · rw [htext]; rfl
      · intro hspan
        simp only [flushChunk] at hspan ⊢
        exact inv.small (by omega)
  · rw [extract_eq_of_no_rem lines B hrem]
    exact inv.good

theorem extract_chain (lines : List Str) (B : Nat)
    (hrem : strip (chunkLoop B 0 lines initChunkState).current ≠ []) :
    chainFrom 0 0 (extract_text_to_chunks lines B) lines.length := by
  have inv := extract_inv lines B
  have hcur : (chunkLoop B 0 lines initChunkState).current ≠ [] :=
    strip_ne_nil_imp _ hrem
  have hlt := chunkInv_start_lt inv hcur
  rw [extract_eq_of_rem lines B hrem]
  have h := chainFrom_append 0 0 (chunkLoop B 0 lines initChunkState).chunks
    (chunkLoop B 0 lines initChunkState).line_start
    (flushChunk (chunkLoop B 0 lines initChunkState) (lines.length - 1))
    inv.chain (by simpa [flushChunk] using inv.ids) rfl
    (by simp only [flushChunk]; omega)
  rwa [show (flushChunk (chunkLoop B 0 lines initChunkState)
      (lines.length - 1)).line_end + 1 = lines.length from by
    simp only [flushChunk]; omega] at h

/-- C1 (amended): for every text file whose content splits into a non-empty
list of lines and whose remainder after the last in-loop flush still
contains a non-whitespace character (so that the final accumulator is
flushed rather than dropped), the chunks returned by
`extract_text_to_chunks` partition the line-index range exactly: the first
chunk's `line_start` is 0, the last chunk's `line_end` is the last line
index, every chunk's `line_start` is the previous chunk's `line_end` plus
one, and every line index lies in exactly one chunk's
`[line_start, line_end]` range. -/
theorem extract_chunks_partition (lines : List Str) (B : Nat)
    (hne : lines ≠ [])
    (hrem : strip (chunkLoop B 0 lines initChunkState).current ≠ []) :
    (∃ h : extract_text_to_chunks lines B ≠ [],
        ((extract_text_to_chunks lines B).head h).line_start = 0 ∧
        ((extract_text_to_chunks lines B).getLast h).line_end =
          lines.length - 1) ∧
    (∀ i (h2 : i + 1 < (extract_text_to_chunks lines B).length),
        ((extract_text_to_chunks lines B).get ⟨i + 1, h2⟩).line_start =
          ((extract_text_to_chunks lines B).get
            ⟨i, Nat.lt_of_succ_lt h2⟩).line_end + 1) ∧
    (∀ j, j < lines.length →
        ∃ c, c ∈ extract_text_to_chunks lines B ∧
          c.line_start ≤ j ∧ j ≤ c.line_end ∧
          ∀ d, d ∈ extract_text_to_chunks lines B →
            d.line_start ≤ j → j ≤ d.line_end → d = c) := by
  have hchain := extract_chain lines B hrem
  have hn : 0 < lines.length := List.length_pos.mpr hne
  have hCSne : extract_text_to_chunks lines B ≠ [] := by
    intro h
    rw [h] at hchain
    have h0 : (0 : Nat) = lines.length := hchain
    omega
  refine ⟨⟨hCSne, ?_, ?_⟩, ?_, ?_⟩
  · exact chainFrom_head_start _ _ _ _ hchain hCSne
  · have := chainFrom_getLast _ _ _ _ hchain hCSne
    omega
  · exact chainFrom_adjacent _ _ _ _ hchain
  · intro j hj
    obtain ⟨c, hc, hc1, hc2⟩ :=
      chainFrom_cover _ _ _ _ hchain j (Nat.zero_le j) hj
    exact ⟨c, hc, hc1, hc2, fun d hd hd1 hd2 =>
      chainFrom_unique _ _ _ _ hchain j d hd c hc hd1 hd2 hc1 hc2⟩

/-- Witness for C1: a concrete two-line file, budget 3, where the theorem's
hypotheses hold and the partition follows by applying the theorem. -/
theorem extract_chunks_partition_witness :
    ((([['a'], ['b']] : List Str) ≠ []) ∧
      strip (chunkLoop 3 0 [['a'], ['b']] initChunkState).current ≠ []) ∧
    ((∃ h : extract_text_to_chunks [['a'], ['b']] 3 ≠ [],
        ((extract_text_to_chunks [['a'], ['b']] 3).head h).line_start = 0 ∧
        ((extract_text_to_chunks [['a'], ['b']] 3).getLast h).line_end =
          ([['a'], ['b']] : List Str).length - 1) ∧
    (∀ i (h2 : i + 1 < (extract_text_to_chunks [['a'], ['b']] 3).length),
        ((extract_text_to_chunks [['a'], ['b']] 3).get ⟨i + 1, h2⟩).line_start =
          ((extract_text_to_chunks [['a'], ['b']] 3).get
            ⟨i, Nat.lt_of_succ_lt h2⟩).line_end + 1) ∧
    (∀ j, j < ([['a'], ['b']] : List Str).length →
        ∃ c, c ∈ extract_text_to_chunks [['a'], ['b']] 3 ∧
          c.line_start ≤ j ∧ j ≤ c.line_end ∧
          ∀ d, d ∈ extract_text_to_chunks [['a'], ['b']] 3 →
            d.line_start ≤ j → j ≤ d.line_end → d = c)) :=
  ⟨⟨by decide, by decide⟩,
    extract_chunks_partition [['a'], ['b']] 3 (by decide) (by decide)⟩

/-- Counterexample for C1 as stated: a text file whose single line is one
space splits into the non-empty line list `[" "]`, yet
`extract_text_to_chunks` returns no chunks at all (the whitespace-only
final accumulator is dropped), so line index 0 lies in no chunk. -/
theorem extract_chunks_partition_cex :
    (([[' ']] : List Str) ≠ []) ∧
    extract_text_to_chunks [[' ']] 1000 = [] ∧
    ¬ ∃ c, c ∈ extract_text_to_chunks [[' ']] 1000 ∧
        c.line_start ≤ 0 ∧ 0 ≤ c.line_end := by decide

/-- C10: for every chunk emitted by `extract_text_to_chunks`, `text` is the
accumulated lines with trailing whitespace stripped while `char_count` is
the length of the unstripped accumulator (each folded line contributing its
text plus one newline), so `char_count` is at least the length of `text`
and strictly greater whenever the accumulator ends in whitespace; and a
final accumulator consisting only of whitespace is dropped entirely,
emitting no chunk for those lines. -/
theorem chunk_text_vs_char_count (lines : List Str) (B : Nat) :
    (∀ c ∈ extract_text_to_chunks lines B,
        c.text = rstrip (chunkText lines c) ∧
        c.char_count = (chunkText lines c).length ∧
        c.char_count = ((lineSlice lines c.line_start (c.line_end + 1)).map
          (fun l => l.length + 1)).sum ∧
        c.text.length ≤ c.char_count ∧
        (∀ (h : chunkText lines c ≠ []),
          isPySpace ((chunkText lines c).getLast h) →
            c.text.length < c.char_count)) ∧
    (strip (chunkLoop B 0 lines initChunkState).current = [] →
      extract_text_to_chunks lines B =
        (chunkLoop B 0 lines initChunkState).chunks) := by
  constructor
  · intro c hc
    obtain ⟨htext, hcount, -⟩ := extract_good lines B c hc
    refine ⟨htext, hcount, ?_, ?_, ?_⟩
    · rw [hcount]
      exact joinLines_length _
    · rw [htext, hcount]
      exact rstrip_length_le _
    · intro h hsp
      rw [htext, hcount]
      exact rstrip_length_lt _ h hsp
  · intro h
    exact extract_eq_of_no_rem lines B (by simp [h])

/-- Witness for C10: the single chunk of the one-line file `"a"` with
budget 5; its accumulator `"a\n"` ends in whitespace, so `char_count`
strictly exceeds the stripped text's length. -/
theorem chunk_text_vs_char_count_witness :
    ((⟨0, 0, 0, ['a'], 2⟩ : TextChunkData) ∈ extract_text_to_chunks [['a']] 5) ∧
    (⟨0, 0, 0, ['a'], 2⟩ : TextChunkData).text.length <
      (⟨0, 0, 0, ['a'], 2⟩ : TextChunkData).char_count :=
  ⟨by decide,
    ((chunk_text_vs_char_count [['a']] 5).1 _ (by decide)).2.2.2.2
      (by decide) (by decide)⟩

/-- Counterexample for C3 as stated: the file whose single line is two
spaces has that line longer than the budget 1, yet `extract_text_to_chunks`
emits no chunk at all (the whitespace-only accumulator is dropped), and for
the file `["a"*100, "b", "c"]` with budget 10 the first (non-last) chunk's
`char_count` is 101, far more than the budget plus the length (with or
without its newline) of the line `"b"` whose arrival triggered the flush. -/
theorem oversized_line_cex :
    ((([' ', ' '] : Str).length > 1 ∧ extract_text_to_chunks [[' ', ' ']] 1 = [])) ∧
    ((extract_text_to_chunks [List.replicate 100 'a', ['b'], ['c']] 10).map
        (fun c => (c.chunk_id, c.line_start, c.line_end, c.char_count)) =
      [(0, 0, 0, 101), (1, 1, 2, 4)] ∧
    ¬ (101 ≤ 10 + (['b'] : Str).length + 1)) := by decide

/-- C3 (amended): a single line longer than the budget is never split
across chunks: any emitted chunk whose range contains an oversized line
consists of exactly that line, its `text` the line itself with trailing
whitespace stripped and its `char_count` the line's length plus one (its
newline) — though a whitespace-only remainder is dropped rather than
emitted as a chunk — and every chunk spanning at least two lines has
`char_count` at most the configured budget. -/
theorem oversized_line_own_chunk (lines : List Str) (B : Nat)
    (c : TextChunkData) (hc : c ∈ extract_text_to_chunks lines B) :
    (∀ i (hlt : i < lines.length), c.line_start ≤ i → i ≤ c.line_end →
        B < (lines.get ⟨i, hlt⟩).length + 1 →
        c.line_start = i ∧ c.line_end = i ∧
        c.text = rstrip (lines.get ⟨i, hlt⟩) ∧
        c.char_count = (lines.get ⟨i, hlt⟩).length + 1) ∧
    (c.line_start < c.line_end → c.char_count ≤ B) := by
  obtain ⟨htext, hcount, hbound⟩ := extract_good lines B c hc
  refine ⟨?_, hbound⟩
  intro i hlt h1 h2 hover
  have hmem : lines.get ⟨i, hlt⟩ ∈ lineSlice lines c.line_start (c.line_end + 1) :=
    lineSlice_get_mem lines _ i _ h1 h2 hlt
  have hge : (lines.get ⟨i, hlt⟩).length + 1 ≤ c.char_count := by
    rw [hcount]
    exact length_le_joinLines _ _ hmem
  have heq : c.line_start = c.line_end := by
    rcases Nat.lt_or_ge c.line_start c.line_end with hlt' | hge'
    · exact absurd (hbound hlt') (by omega)
    · omega
  have hi : c.line_start = i ∧ c.line_end = i := by omega
  obtain ⟨hi1, hi2⟩ := hi
  have hslice : lineSlice lines c.line_start (c.line_end + 1) =
      [lines.get ⟨i, hlt⟩] := by
    rw [hi1, hi2]
    exact lineSlice_single lines i _ _ (List.drop_eq_getElem_cons hlt)
  have hct : chunkText lines c = lines.get ⟨i, hlt⟩ ++ ['\n'] := by
    unfold chunkText
    rw [hslice, joinLines_singleton]
  refine ⟨hi1, hi2, ?_, ?_⟩
  · rw [htext, hct, rstrip_concat_space _ _ (by decide)]
  · rw [hcount, hct]
    simp

/-- Witness for C3: the one-line file `"aaa"` with budget 1; its line is
oversized, and the theorem yields that the emitted chunk is exactly that
line. -/
theorem oversized_line_own_chunk_witness :
    ((⟨0, 0, 0, ['a', 'a', 'a'], 4⟩ : TextChunkData) ∈
        extract_text_to_chunks [['a', 'a', 'a']] 1) ∧
    ((0 : Nat) < ([['a', 'a', 'a']] : List Str).length) ∧
    ((⟨0, 0, 0, ['a', 'a', 'a'], 4⟩ : TextChunkData).line_start = 0 ∧
      (⟨0, 0, 0, ['a', 'a', 'a'], 4⟩ : TextChunkData).line_end = 0 ∧
      (⟨0, 0, 0, ['a', 'a', 'a'], 4⟩ : TextChunkData).text =
        rstrip (([['a', 'a', 'a']] : List Str).get ⟨0, by decide⟩) ∧
      (⟨0, 0, 0, ['a', 'a', 'a'], 4⟩ : TextChunkData).char_count =
        (([['a', 'a', 'a']] : List Str).get ⟨0, by decide⟩).length + 1) :=
  ⟨by decide, by decide,
    (oversized_line_own_chunk [['a', 'a', 'a']] 1 _ (by decide)).1
      0 (by decide) (by decide) (by decide) (by decide)⟩

/-! Simulation between the source's chunker fold and the spec's Chunker. -/

theorem specStep_eq_pos {B : Nat} {ss : SpecState} {idx : Nat} {unit : Str}
    (h : ss.acc.length + (unit.length + 1) > B ∧ ss.acc ≠ []) (f l : Nat)
    (hb : ss.bounds = some (f, l)) :
    specStep B ss idx unit =
      ⟨ss.emitted ++ [⟨ss.nextId, f, l⟩], ss.nextId + 1, unit ++ ['\n'],
        some (idx, idx)⟩ := by
  rw [specStep, if_pos h, hb]

theorem specStep_eq_neg_none {B : Nat} {ss : SpecState} {idx : Nat} {unit : Str}
    (h : ¬ (ss.acc.length + (unit.length + 1) > B ∧ ss.acc ≠ []))
    (hb : ss.bounds = none) :
    specStep B ss idx unit =
      { ss with acc := ss.acc ++ (unit ++ ['\n']), bounds := some (idx, idx) } := by
  rw [specStep, if_neg h, hb]

theorem specStep_eq_neg_some {B : Nat} {ss : SpecState} {idx : Nat} {unit : Str}
    (h : ¬ (ss.acc.length + (unit.length + 1) > B ∧ ss.acc ≠ [])) (f l : Nat)
    (hb : ss.bounds = some (f, l)) :
    specStep B ss idx unit =
      { ss with acc := ss.acc ++ (unit ++ ['\n']), bounds := some (f, idx) } := by
  rw [specStep, if_neg h, hb]

theorem specStep_sim (B idx : Nat) (l : Str) (st : ChunkState) (ss : SpecState)
    (h1 : ss.emitted.map specBounds = st.chunks.map chunkBounds)
    (h2 : ss.nextId = st.chunk_id)
    (h3 : ss.acc = st.current)
    (h4 : st.current = [] → ss.bounds = none ∧ st.line_start = idx)
    (h5 : st.current ≠ [] → ss.bounds = some (st.line_start, idx - 1)) :
    (specStep B ss idx l).emitted.map specBounds =
        (stepLine B st idx l).chunks.map chunkBounds ∧
    (specStep B ss idx l).nextId = (stepLine B st idx l).chunk_id ∧
    (specStep B ss idx l).acc = (stepLine B st idx l).current ∧
    ((stepLine B st idx l).current = [] →
      (specStep B ss idx l).bounds = none ∧
        (stepLine B st idx l).line_start = idx + 1) ∧
    ((stepLine B st idx l).current ≠ [] →
      (specStep B ss idx l).bounds =
        some ((stepLine B st idx l).line_start, idx)) := by
  have hlen : (l ++ ['\n']).length = l.length + 1 := by simp
  by_cases hC : st.current.length + (l ++ ['\n']).length > B ∧ st.current ≠ []
  · have hC' : ss.acc.length + (l.length + 1) > B ∧ ss.acc ≠ [] := by
      rw [h3, ← hlen]; exact hC
    rw [stepLine_eq_pos hC, specStep_eq_pos hC' _ _ (h5 hC.2)]
    refine ⟨?_, ?_, rfl, ?_, ?_⟩
    · simp [h1, h2, specBounds, chunkBounds, flushChunk]
    · simpa using h2
    · intro h; simp at h
    · intro _; rfl
  · have hC' : ¬ (ss.acc.length + (l.length + 1) > B ∧ ss.acc ≠ []) := by
      rw [h3, ← hlen]; exact hC
    rw [stepLine_eq_neg hC]
    by_cases hcur : st.current = []
    · obtain ⟨hb, hls⟩ := h4 hcur
      rw [specStep_eq_neg_none hC' hb]
      refine ⟨h1, h2, by rw [h3], ?_, ?_⟩
      · intro h; simp at h
      · intro _
        simp only
        rw [hls]
    · rw [specStep_eq_neg_some hC' _ _ (h5 hcur)]
      refine ⟨h1, h2, by rw [h3], ?_, ?_⟩
      · intro h; simp at h
      · intro _; rfl

theorem specFold_sim (B : Nat) :
    ∀ (units : List Str) (idx : Nat) (st : ChunkState) (ss : SpecState),
      ss.emitted.map specBounds = st.chunks.map chunkBounds →
      ss.nextId = st.chunk_id →
      ss.acc = st.current →
      (st.current = [] → ss.bounds = none ∧ st.line_start = idx) →
      (st.current ≠ [] → ss.bounds = some (st.line_start, idx - 1)) →
      (specFold B idx units ss).emitted.map specBounds =
        (chunkLoop B idx units st).chunks.map chunkBounds := by
  intro units
  induction units with
  | nil =>
      intro idx st ss h1 _ _ _ _
      simpa [specFold, chunkLoop] using h1
  | cons l rest ih =>
      intro idx st ss h1 h2 h3 h4 h5
      obtain ⟨g1, g2, g3, g4, g5⟩ := specStep_sim B idx l st ss h1 h2 h3 h4 h5
      exact ih (idx + 1) _ _ g1 g2 g3 g4 g5

/-- C2: the source's per-line fold implements the flush/append discipline
of the spec's Chunker exactly (the chunks flushed by the loop carry the
same ids and the same first/last folded-unit bounds as the spec's fold on
the same input); in particular a file of 3 lines of 400 characters each
with budget 1000 yields exactly two chunks, lines 0–1 then line 2 alone,
with `chunk_id` 0 and 1 in emission order. -/
theorem extract_matches_spec_chunker :
    (∀ (B : Nat) (lines : List Str),
        (specFold B 0 lines initSpecState).emitted.map specBounds =
          (chunkLoop B 0 lines initChunkState).chunks.map chunkBounds) ∧
    (extract_text_to_chunks (List.replicate 3 (List.replicate 400 'a')) 1000).map
        chunkBounds = [(0, 0, 1), (1, 2, 2)] := by
  constructor
  · intro B lines
    exact specFold_sim B lines 0 initChunkState initSpecState rfl rfl rfl
      (fun _ => ⟨rfl, rfl⟩) (fun h => absurd rfl h)
  · decide

/-! Queue enqueue behaviour. -/

theorem le_foldr_max (l : List Nat) (x : Nat) (h : x ∈ l) : x ≤ l.foldr max 0 := by
  induction l with
  | nil => cases h
  | cons a t ih =>
      rcases List.mem_cons.mp h with rfl | hm
      · exact le_max_left _ _
      · exact le_trans (ih hm) (le_max_right _ _)

theorem nextRowId_fresh (db : List QueueRow) : ∀ r ∈ db, r.id ≠ nextRowId db := by
  intro r hr heq
  have hle : r.id ≤ (db.map (fun r => r.id)).foldr max 0 :=
    le_foldr_max _ _ (List.mem_map_of_mem _ hr)
  unfold nextRowId at heq
  omega

theorem nonTerminal_iff (s : QStatus) :
    nonTerminal s = true ↔ (s = QStatus.PENDING ∨ s = QStatus.PROCESSING) := by
  cases s <;> simp [nonTerminal]

theorem violatesUnique_iff (db : List QueueRow) (path : String) :
    violatesUnique db path = true ↔
      ∃ r ∈ db, r.file_path = path ∧
        (r.status = QStatus.PENDING ∨ r.status = QStatus.PROCESSING) := by
  unfold violatesUnique
  rw [List.any_eq_true]
  constructor
  · rintro ⟨r, hr, hcond⟩
    simp only [decide_eq_true_eq] at hcond
    exact ⟨r, hr, hcond.1, (nonTerminal_iff _).mp hcond.2⟩
  · rintro ⟨r, hr, hpath, hst⟩
    exact ⟨r, hr, by simp only [decide_eq_true_eq]
                     exact ⟨hpath, (nonTerminal_iff _).mpr hst⟩⟩

/-- C4: `enqueue` of a `file_path` for which an item currently exists in a
non-terminal state (PENDING or PROCESSING) fails with the duplicate error,
while `enqueue` of a path whose only existing items are COMPLETED or FAILED
succeeds and inserts a fresh PENDING row with a new id (distinct from every
existing id), the given priority, `retry_count` 0 and unset
`started_at`/`completed_at`. -/
theorem enqueue_duplicate_policy (db : List QueueRow) (path : String)
    (prio : Int) (now : Nat) :
    ((∃ r ∈ db, r.file_path = path ∧
        (r.status = QStatus.PENDING ∨ r.status = QStatus.PROCESSING)) →
      enqueue db path prio now = Except.error QueueError.DuplicateError) ∧
    ((∀ r ∈ db, r.file_path = path →
        (r.status = QStatus.COMPLETED ∨ r.status = QStatus.FAILED)) →
      enqueue db path prio now =
        Except.ok
          (db ++ [⟨nextRowId db, path, QStatus.PENDING, prio, 0, now, none, none⟩],
            nextRowId db) ∧
      ∀ r ∈ db, r.id ≠ nextRowId db) := by
  constructor
  · intro hdup
    unfold enqueue
    rw [if_pos ((violatesUnique_iff db path).mpr hdup)]
  · intro hterm
    have hfalse : ¬ violatesUnique db path = true := by
      intro htrue
      obtain ⟨r, hr, hpath, hst⟩ := (violatesUnique_iff db path).mp htrue
      rcases hterm r hr hpath with h | h <;> rcases hst with h2 | h2 <;>
        rw [h] at h2 <;> cases h2
    unfold enqueue
    rw [if_neg hfalse]
    exact ⟨rfl, nextRowId_fresh db⟩

/-- Witness for C4: enqueueing path `"a"` while a PENDING row for `"a"`
exists fails as a duplicate; enqueueing it when the only row for `"a"` is
COMPLETED inserts a fresh PENDING row with the new id 2. -/
theorem enqueue_duplicate_policy_witness :
    enqueue [⟨1, "a", QStatus.PENDING, 0, 0, 0, none, none⟩] "a" 2 7 =
      Except.error QueueError.DuplicateError ∧
    enqueue [⟨1, "a", QStatus.COMPLETED, 0, 0, 0, none, some 5⟩] "a" 2 7 =
      Except.ok
        ([⟨1, "a", QStatus.COMPLETED, 0, 0, 0, none, some 5⟩,
          ⟨2, "a", QStatus.PENDING, 2, 0, 7, none, none⟩], 2) :=
  ⟨(enqueue_duplicate_policy [⟨1, "a", QStatus.PENDING, 0, 0, 0, none, none⟩]
      "a" 2 7).1
      ⟨⟨1, "a", QStatus.PENDING, 0, 0, 0, none, none⟩, by decide, by decide,
        Or.inl (by decide)⟩,
    ((enqueue_duplicate_policy [⟨1, "a", QStatus.COMPLETED, 0, 0, 0, none, some 5⟩]
      "a" 2 7).2
      (fun r hr _ => by
        have : r = ⟨1, "a", QStatus.COMPLETED, 0, 0, 0, none, some 5⟩ := by
          simpa using hr
        subst this
        exact Or.inl rfl)).1⟩

/-! Encoding detection. -/

theorem tryEncodingsFrom_all_none (decode : Enc → Option Str)
    (cands : List Enc) (h : ∀ e ∈ cands, decode e = none) :
    tryEncodingsFrom decode cands = Enc.utf8 := by
  induction cands with
  | nil => rfl
  | cons e rest ih =>
      have he : decode e = none := h e (List.mem_cons_self _ _)
      simp only [tryEncodingsFrom, he, Option.isSome_none, Bool.false_eq_true,
        if_false]
      exact ih (fun x hx => h x (List.mem_cons_of_mem _ hx))

theorem tryEncodingsFrom_first (decode : Enc → Option Str) :
    ∀ (cands : List Enc) (i : Nat) (hi : i < cands.length),
      (decode (cands.get ⟨i, hi⟩)).isSome →
      (∀ j (hj : j < i), decode (cands.get ⟨j, lt_trans hj hi⟩) = none) →
      tryEncodingsFrom decode cands = cands.get ⟨i, hi⟩ := by
  intro cands
  induction cands with
  | nil => intro i hi; simp at hi
  | cons e rest ih =>
      intro i hi hsome hprev
      cases i with
      | zero =>
          simp only [List.get] at hsome ⊢
          simp [tryEncodingsFrom, hsome]
      | succ i =>
          have he : decode e = none := hprev 0 (Nat.succ_pos i)
          simp only [tryEncodingsFrom, he, Option.isSome_none,
            Bool.false_eq_true, if_false]
          exact ih i (by simpa using hi) (by simpa using hsome)
            (fun j hj => by simpa using hprev (j + 1) (by omega))

/-- C6: if no candidate encoding in the prioritized trial list decodes the
full file, `read_text_file` fails with the encoding error rather than
returning content; otherwise the detected encoding is the first candidate
in the list that decodes the full file, and the file's content under it is
returned. -/
theorem read_text_encoding_policy (decode : Enc → Option Str) :
    ((∀ e ∈ encodingCandidates, decode e = none) →
      read_text_file decode = Except.error TextReadError.encodingError) ∧
    (∀ (i : Nat) (hi : i < encodingCandidates.length),
      (decode (encodingCandidates.get ⟨i, hi⟩)).isSome →
      (∀ j (hj : j < i),
        decode (encodingCandidates.get ⟨j, lt_trans hj hi⟩) = none) →
      ∃ content, decode (encodingCandidates.get ⟨i, hi⟩) = some content ∧
        read_text_file decode =
          Except.ok (encodingCandidates.get ⟨i, hi⟩, content)) := by
  constructor
  · intro hall
    have hdet : tryEncodings decode = Enc.utf8 :=
      tryEncodingsFrom_all_none decode encodingCandidates hall
    unfold read_text_file
    rw [hdet]
    simp only [hall Enc.utf8 (by decide)]
  · intro i hi hsome hprev
    have hdet : tryEncodings decode = encodingCandidates.get ⟨i, hi⟩ :=
      tryEncodingsFrom_first decode encodingCandidates i hi hsome hprev
    obtain ⟨content, hcontent⟩ := Option.isSome_iff_exists.mp hsome
    refine ⟨content, hcontent, ?_⟩
    unfold read_text_file
    rw [hdet]
    simp only [hcontent]

/-- Witness for C6: a file decodable only as cp932; detection skips utf-8
and returns cp932 with the decoded content. -/
theorem read_text_encoding_policy_witness :
    ∃ content,
      (fun e => if e = Enc.cp932 then some (['x'] : Str) else none)
          Enc.cp932 = some content ∧
      read_text_file
          (fun e => if e = Enc.cp932 then some (['x'] : Str) else none) =
        Except.ok (Enc.cp932, content) :=
  (read_text_encoding_policy
      (fun e => if e = Enc.cp932 then some (['x'] : Str) else none)).2
    1 (by decide) (by decide)
    (fun j hj => by
      have hj0 : j = 0 := by omega
      subst hj0
      rfl)

/-! Spreadsheet row emission. -/

theorem rstrip_eq_nil_iff (s : Str) : rstrip s = [] ↔ ∀ x ∈ s, isPySpace x := by
  unfold rstrip
  rw [List.reverse_eq_nil_iff, List.dropWhile_eq_nil_iff]
  constructor
  · intro h x hx
    exact h x (List.mem_reverse.mpr hx)
  · intro h x hx
    exact h x (List.mem_reverse.mp hx)

theorem strip_eq_nil_iff (s : Str) : strip s = [] ↔ ∀ x ∈ s, isPySpace x := by
  unfold strip lstrip
  rw [rstrip_eq_nil_iff]
  constructor
  · intro h x hx
    rw [← List.takeWhile_append_dropWhile (p := isPySpace) (l := s)] at hx
    rcases List.mem_append.mp hx with htake | hdrop
    · exact List.mem_takeWhile_imp htake
    · exact h x hdrop
  · intro h x hx
    exact h x ((List.dropWhile_sublist _).mem hx)

theorem joinWith_head (sep : Str) (c : Str) (cs : List Str) :
    ∃ t, joinWith sep (c :: cs) = c ++ t := by
  cases cs with
  | nil => exact ⟨[], by simp [joinWith]⟩
  | cons d cs =>
      exact ⟨sep ++ joinWith sep (d :: cs), by simp [joinWith]⟩

theorem notBlank_exists (c : Str) (h : notBlank c = true) :
    ∃ x ∈ c, ¬ isPySpace x := by
  have hne : strip c ≠ [] := by
    intro hnil
    unfold notBlank at h
    rw [hnil] at h
    simp at h
  by_contra hall
  push_neg at hall
  exact hne ((strip_eq_nil_iff c).mpr hall)

theorem strip_joinWith_ne (sep : Str) (parts : List Str) (c : Str)
    (hc : parts = c :: (parts.tail)) (hnb : notBlank c = true) :
    strip (joinWith sep parts) ≠ [] := by
  obtain ⟨t, ht⟩ := joinWith_head sep c parts.tail
  rw [hc, ht]
  intro hnil
  obtain ⟨x, hx, hxs⟩ := notBlank_exists c hnb
  exact hxs ((strip_eq_nil_iff _).mp hnil x (List.mem_append.mpr (Or.inl hx)))

theorem extract_dataframe_rows_enum (sheet : List (List Str)) :
    ∀ i, (extract_dataframe_rows i sheet).map (fun u => (u.row_index, u.text)) =
      (List.enumFrom i sheet).filterMap (fun p =>
        if (p.2.filter notBlank).isEmpty then none
        else some (p.1, joinWith [' '] (p.2.filter notBlank))) := by
  induction sheet with
  | nil => intro i; rfl
  | cons row rest ih =>
      intro i
      simp only [List.enumFrom, List.filterMap_cons]
      unfold extract_dataframe_rows
      by_cases h : (row.filter notBlank).isEmpty
      · simp only [h, if_pos rfl, if_true]
        exact ih (i + 1)
      · simp only [h, if_false, Bool.false_eq_true, List.map_cons]
        rw [ih (i + 1)]

theorem extract_dataframe_rows_text_ne : ∀ (sheet : List (List Str)) (i : Nat)
    (u : ExcelRowData), u ∈ extract_dataframe_rows i sheet → strip u.text ≠ [] := by
  intro sheet
  induction sheet with
  | nil => intro i u hu; cases hu
  | cons row rest ih =>
      intro i u hu
      unfold extract_dataframe_rows at hu
      by_cases h : (row.filter notBlank).isEmpty
      · rw [if_pos h] at hu
        exact ih (i + 1) u hu
      · rw [if_neg h] at hu
        rcases List.mem_cons.mp hu with rfl | hmem
        · have hne : row.filter notBlank ≠ [] := by
            intro hnil
            rw [hnil] at h
            exact h rfl
          obtain ⟨c, cs, hcs⟩ := List.exists_cons_of_ne_nil hne
          have hnb : notBlank c = true := by
            have hcmem : c ∈ row.filter notBlank := by
              rw [hcs]; exact List.mem_cons_self _ _
            exact (List.mem_filter.mp hcmem).2
          simp only
          rw [hcs]
          exact strip_joinWith_ne [' '] (c :: cs) c rfl hnb
        · exact ih (i + 1) u hmem

/-- C7: the spreadsheet adapter emits one row record per non-empty row,
its text the row's non-blank cell values joined with `" "`, and emits
nothing for a fully blank row (no emitted unit is ever blank); in
particular the sheet with rows `["a","b"], ["",""], ["c"]` yields exactly
the two units `"a b"` (row 0) and `"c"` (row 2). -/
theorem excel_rows_emission :
    (∀ sheet : List (List Str),
        (extract_dataframe_rows 0 sheet).map (fun u => (u.row_index, u.text)) =
          (List.enumFrom 0 sheet).filterMap (fun p =>
            if (p.2.filter notBlank).isEmpty then none
            else some (p.1, joinWith [' '] (p.2.filter notBlank)))) ∧
    (∀ (sheet : List (List Str)) (u : ExcelRowData),
        u ∈ extract_dataframe_rows 0 sheet → strip u.text ≠ []) ∧
    extract_dataframe_rows 0 [[['a'], ['b']], [[], []], [['c']]] =
      [⟨0, ['a', ' ', 'b']⟩, ⟨2, ['c']⟩] :=
  ⟨fun sheet => extract_dataframe_rows_enum sheet 0,
    fun sheet u hu => extract_dataframe_rows_text_ne sheet 0 u hu,
    by decide⟩

/-- Witness for C7: the scenario sheet's first emitted unit, whose text is
not blank by the theorem. -/
theorem excel_rows_emission_witness :
    ((⟨0, ['a', ' ', 'b']⟩ : ExcelRowData) ∈
        extract_dataframe_rows 0 [[['a'], ['b']], [[], []], [['c']]]) ∧
    strip (⟨0, ['a', ' ', 'b']⟩ : ExcelRowData).text ≠ [] :=
  ⟨by decide,
    excel_rows_emission.2.1 [[['a'], ['b']], [[], []], [['c']]] _ (by decide)⟩

/-! Word-document unit emission. -/

theorem extractParagraphs_enum (ps : List Str) :
    ∀ i, (extractParagraphs i ps).map
        (fun p => WordUnit.para p.paragraph_index p.text) =
      (List.enumFrom i ps).filterMap (fun q =>
        if (strip q.2).isEmpty then none
        else some (WordUnit.para q.1 (strip q.2))) := by
  induction ps with
  | nil => intro i; rfl
  | cons p rest ih =>
      intro i
      simp only [List.enumFrom, List.filterMap_cons]
      unfold extractParagraphs
      by_cases h : (strip p).isEmpty
      · simp only [h, if_true]
        exact ih (i + 1)
      · simp only [h, if_false, Bool.false_eq_true, List.map_cons]
        rw [ih (i + 1)]

theorem extractTableRows_enum (tidx : Nat) (rows : List (List Str)) :
    ∀ ridx, (extractTableRows ridx rows).map (fun r =>
        WordUnit.tableRow tidx r.row_index
          (joinWith [' ', '|', ' '] (r.cells.filter fun c => ¬ c.isEmpty))) =
      (List.enumFrom ridx rows).filterMap (fun q =>
        if (cellsText q.2).isEmpty then none
        else some (WordUnit.tableRow tidx q.1 (cellsText q.2))) := by
  induction rows with
  | nil => intro ridx; rfl
  | cons row rest ih =>
      intro ridx
      simp only [List.enumFrom, List.filterMap_cons]
      unfold extractTableRows
      by_cases h : (cellsText row).isEmpty
      · simp only [h, if_true]
        exact ih (ridx + 1)
      · simp only [h, if_false, Bool.false_eq_true, List.map_cons]
        rw [ih (ridx + 1)]
        rfl

theorem extractTables_units (tbls : List (List (List Str))) :
    ∀ tidx, ((extractTables tidx tbls).map (fun t => t.rows.map (fun r =>
        WordUnit.tableRow t.table_index r.row_index
          (joinWith [' ', '|', ' '] (r.cells.filter fun c => ¬ c.isEmpty))))).flatten =
      ((List.enumFrom tidx tbls).map (fun q =>
        (List.enumFrom 0 q.2).filterMap (fun r =>
          if (cellsText r.2).isEmpty then none
          else some (WordUnit.tableRow q.1 r.1 (cellsText r.2))))).flatten := by
  induction tbls with
  | nil => intro tidx; rfl
  | cons tbl rest ih =>
      intro tidx
      simp only [List.enumFrom, List.map_cons, List.flatten_cons]
      unfold extractTables
      by_cases h : (extractTableRows 0 tbl).isEmpty
      · have hrows : extractTableRows 0 tbl = [] := by
          simpa using h
        have hhead := extractTableRows_enum tidx tbl 0
        rw [hrows] at hhead
        simp only [List.map_nil] at hhead
        rw [if_pos h, ← hhead]
        simp only [List.nil_append]
        exact ih (tidx + 1)
      · rw [if_neg h]
        simp only [List.map_cons, List.flatten_cons]
        rw [← extractTableRows_enum tidx tbl 0, ih (tidx + 1)]

/-- C8: the Word adapter's output carries one unit per non-empty paragraph
followed by one unit per non-empty table row whose text joins its
non-blank cells with `" | "`: all paragraph units precede all table-row
units, document order is preserved within paragraphs, within tables and
within each table's rows, and empty paragraphs and fully empty table rows
are omitted; checked also on a concrete document. -/
theorem word_units_emission :
    (∀ doc : WordDoc,
        wordUnits (read_word_file doc) =
          (List.enumFrom 0 doc.paragraphs).filterMap (fun q =>
            if (strip q.2).isEmpty then none
            else some (WordUnit.para q.1 (strip q.2))) ++
          ((List.enumFrom 0 doc.tables).map (fun q =>
            (List.enumFrom 0 q.2).filterMap (fun r =>
              if (cellsText r.2).isEmpty then none
              else some (WordUnit.tableRow q.1 r.1 (cellsText r.2))))).flatten) ∧
    wordUnits (read_word_file
        ⟨[['a'], [' ']], [[[['x'], []], [[], []]], []]⟩) =
      [WordUnit.para 0 ['a'], WordUnit.tableRow 0 0 ['x']] := by
  constructor
  · intro doc
    unfold wordUnits read_word_file
    simp only
    rw [extractParagraphs_enum doc.paragraphs 0, extractTables_units doc.tables 0]
  · decide

/-! File metadata and the streamed content hash. -/

theorem chunksOfPos_foldl {St : Type} (updByte : St → Nat → St) (n : Nat) :
    ∀ (l : List Nat) (s : St),
      (chunksOfPos n l).foldl (updateBlock updByte) s = l.foldl updByte s := by
  have H : ∀ (k : Nat) (l : List Nat), l.length ≤ k → ∀ s : St,
      (chunksOfPos n l).foldl (updateBlock updByte) s = l.foldl updByte s := by
    intro k
    induction k with
    | zero =>
        intro l hl s
        have : l = [] := List.length_eq_zero.mp (Nat.le_zero.mp hl)
        subst this
        rw [chunksOfPos]
        rfl
    | succ k ih =>
        intro l hl s
        cases l with
        | nil => rw [chunksOfPos]; rfl
        | cons b rest =>
            rw [chunksOfPos]
            simp only [List.foldl_cons]
            rw [ih (rest.drop n) (by simp only [List.length_drop]
                                     simp only [List.length_cons] at hl
                                     omega)]
            conv_rhs => rw [← List.take_append_drop n rest]
            rw [List.foldl_append]
            simp [updateBlock]
  intro l s
  exact H l.length l (le_refl _) s

/-- C9: `get_file_metadata` fails with the not-found error exactly when the
path does not exist, fails with the not-a-file error exactly when the path
exists but is not a regular file, and otherwise returns a metadata record
whose `file_hash` is the digest of the whole file content — the block-wise
streamed digest equals the digest of the full byte sequence — computed as a
pure function of the filesystem. -/
theorem get_file_metadata_spec {St D : Type} (init : St)
    (updByte : St → Nat → St) (hexdigest : St → D)
    (fs : String → Option FsNode) (path : String) :
    (get_file_metadata init updByte hexdigest fs path =
        Except.error MetaError.notFound ↔ fs path = none) ∧
    (get_file_metadata init updByte hexdigest fs path =
        Except.error MetaError.notAFile ↔ fs path = some FsNode.dir) ∧
    (∀ content, fs path = some (FsNode.file content) →
      get_file_metadata init updByte hexdigest fs path =
        Except.ok ⟨hexdigest (content.foldl updByte init), content.length⟩) := by
  refine ⟨?_, ?_, ?_⟩
  · rcases h : fs path with - | node
    · simp [get_file_metadata, h]
    · cases node <;> simp [get_file_metadata, h]
  · rcases h : fs path with - | node
    · simp [get_file_metadata, h]
    · cases node <;> simp [get_file_metadata, h]
  · intro content h
    simp only [get_file_metadata, h]
    rw [calculate_file_hash, chunksOfPos_foldl]

/-- Witness for C9: a one-file filesystem, with the digest instantiated by
the free monoid (state: the bytes absorbed so far); the streamed hash of
`[1, 2, 3]` is `[1, 2, 3]` itself. -/
theorem get_file_metadata_spec_witness :
    (fun p => if p = "a.txt" then some (FsNode.file [1, 2, 3]) else none)
        "a.txt" = some (FsNode.file [1, 2, 3]) ∧
    get_file_metadata ([] : List Nat) (fun s b => s ++ [b]) (fun s => s)
        (fun p => if p = "a.txt" then some (FsNode.file [1, 2, 3]) else none)
        "a.txt" =
      Except.ok ⟨[1, 2, 3], 3⟩ :=
  ⟨by decide,
    (get_file_metadata_spec ([] : List Nat) (fun s b => s ++ [b]) (fun s => s)
        (fun p => if p = "a.txt" then some (FsNode.file [1, 2, 3]) else none)
        "a.txt").2.2 [1, 2, 3] (by decide)⟩

/-! Atomic claiming of queue items. -/

theorem betterRow_irrefl (q : QueueRow) : betterRow q q = false := by
  simp only [betterRow, decide_eq_false_iff_not]
  omega

theorem betterRow_worse (a b m : QueueRow) (h1 : betterRow a b = true)
    (h2 : betterRow a m = false) : betterRow b m = false := by
  simp only [betterRow, decide_eq_true_eq, decide_eq_false_iff_not] at h1 h2 ⊢
  omega

theorem betterRow_not_not_trans (a b m : QueueRow) (h1 : betterRow a b = false)
    (h2 : betterRow b m = false) : betterRow a m = false := by
  simp only [betterRow, decide_eq_false_iff_not] at h1 h2 ⊢
  omega

theorem pickBestAux_mem (b : QueueRow) (rs : List QueueRow) :
    pickBestAux b rs ∈ b :: rs := by
  induction rs generalizing b with
  | nil => simp [pickBestAux]
  | cons r t ih =>
      unfold pickBestAux
      by_cases hc : betterRow r b = true
      · rw [if_pos hc]
        exact List.mem_cons_of_mem _ (ih r)
      · rw [if_neg hc]
        rcases List.mem_cons.mp (ih b) with h | h
        · rw [h]; exact List.mem_cons_self _ _
        · exact List.mem_cons_of_mem _ (List.mem_cons_of_mem _ h)

theorem pickBestAux_not_better (rs : List QueueRow) :
    ∀ (b q : QueueRow), q ∈ b :: rs → betterRow q (pickBestAux b rs) = false := by
  induction rs with
  | nil =>
      intro b q hq
      have hqb : q = b := by simpa using hq
      subst hqb
      exact betterRow_irrefl q
  | cons r t ih =>
      intro b q hq
      unfold pickBestAux
      by_cases hc : betterRow r b = true
      · rw [if_pos hc]
        rcases List.mem_cons.mp hq with rfl | hq2
        · exact betterRow_worse r q _ hc (ih r r (List.mem_cons_self _ _))
        · exact ih r q hq2
      · rw [if_neg hc]
        have hcf : betterRow r b = false := by
          revert hc; cases betterRow r b <;> simp
        rcases List.mem_cons.mp hq with rfl | hq2
        · exact ih _ _ (List.mem_cons_self _ _)
        · rcases List.mem_cons.mp hq2 with rfl | hq3
          · exact betterRow_not_not_trans q b _ hcf (ih b b (List.mem_cons_self _ _))
          · exact ih b q (List.mem_cons_of_mem _ hq3)

theorem pickBest_eq_some (rs : List QueueRow) (m : QueueRow)
    (h : pickBest rs = some m) :
    m ∈ rs ∧ ∀ q ∈ rs, betterRow q m = false := by
  cases rs with
  | nil => cases h
  | cons r t =>
      have hm : pickBestAux r t = m := by simpa [pickBest] using h
      subst hm
      exact ⟨pickBestAux_mem r t, pickBestAux_not_better t r⟩

theorem isPending_iff (r : QueueRow) :
    isPending r = true ↔ r.status = QStatus.PENDING := by
  simp [isPending]

theorem nodup_id_inj (db : List QueueRow)
    (h : (db.map (fun r => r.id)).Nodup) :
    ∀ a ∈ db, ∀ b ∈ db, a.id = b.id → a = b := by
  induction db with
  | nil => intro a ha; cases ha
  | cons r t ih =>
      rw [List.map_cons, List.nodup_cons] at h
      intro a ha b hb hab
      rcases List.mem_cons.mp ha with rfl | hat <;>
        rcases List.mem_cons.mp hb with rfl | hbt
      · rfl
      · exact absurd (hab ▸ List.mem_map_of_mem (fun r => r.id) hbt) h.1
      · exact absurd (hab ▸ List.mem_map_of_mem (fun r => r.id) hat) h.1
      · exact ih h.2 a hat b hbt hab

theorem claimUpdate_id (now rid : Nat) (s : QueueRow) :
    (claimUpdate now rid s).id = s.id := by
  unfold claimUpdate
  split <;> rfl

theorem claimUpdate_other (now rid : Nat) (s : QueueRow) (h : s.id ≠ rid) :
    claimUpdate now rid s = s := by
  unfold claimUpdate
  rw [if_neg (fun hc => h hc.1)]

theorem claimUpdate_keep (now rid : Nat) (s : QueueRow)
    (h : s.status ≠ QStatus.PENDING) : claimUpdate now rid s = s := by
  unfold claimUpdate
  rw [if_neg (fun hc => h hc.2)]

theorem claim_ids_eq (db : List QueueRow) (now rid : Nat) :
    (db.map (claimUpdate now rid)).map (fun r => r.id) =
      db.map (fun r => r.id) := by
  rw [List.map_map]
  exact List.map_congr_left (fun s _ => claimUpdate_id now rid s)

theorem map_claimUpdate_no_id (t : List QueueRow) (now rid : Nat)
    (h : ∀ s ∈ t, s.id ≠ rid) : t.map (claimUpdate now rid) = t := by
  induction t with
  | nil => rfl
  | cons s t ih =>
      rw [List.map_cons, claimUpdate_other now rid s (h s (List.mem_cons_self _ _)),
        ih (fun x hx => h x (List.mem_cons_of_mem _ hx))]

theorem pendingCount_claim (db : List QueueRow) (now : Nat) (p : QueueRow)
    (hnodup : (db.map (fun r => r.id)).Nodup) (hin : p ∈ db)
    (hp : p.status = QStatus.PENDING) :
    pendingCount (db.map (claimUpdate now p.id)) = pendingCount db - 1 := by
  induction db with
  | nil => cases hin
  | cons r t ih =>
      rw [List.map_cons, List.nodup_cons] at hnodup
      by_cases hid : r.id = p.id
      · have hrp : p = r := by
          rcases List.mem_cons.mp hin with rfl | hpt
          · rfl
          · exact absurd (hid ▸ List.mem_map_of_mem (fun r => r.id) hpt) hnodup.1
        subst hrp
        rw [List.map_cons]
        rw [map_claimUpdate_no_id t now p.id
          (fun s hs heq => hnodup.1 (heq ▸ List.mem_map_of_mem (fun r => r.id) hs))]
        have hcu : claimUpdate now p.id p =
            { p with status := QStatus.PROCESSING, started_at := some now } := by
          unfold claimUpdate
          rw [if_pos ⟨rfl, hp⟩]
        rw [hcu]
        unfold pendingCount
        rw [List.filter_cons, List.filter_cons]
        have h1 : isPending
            { p with status := QStatus.PROCESSING, started_at := some now } = false := rfl
        have h2 : isPending p = true := by simp [isPending, hp]
        simp only [h1, h2, if_true, if_false, Bool.false_eq_true, List.length_cons]
        omega
      · have hpt : p ∈ t := by
          rcases List.mem_cons.mp hin with rfl | hr
          · exact absurd rfl hid
          · exact hr
        have hpos : 0 < (t.filter isPending).length :=
          List.length_pos.mpr (fun he =>
            (List.not_mem_nil p)
              (he ▸ List.mem_filter.mpr ⟨hpt, (isPending_iff p).mpr hp⟩))
        rw [List.map_cons, claimUpdate_other now p.id r hid]
        have ht := ih hnodup.2 hpt
        unfold pendingCount at ht ⊢
        rw [List.filter_cons, List.filter_cons]
        by_cases hrp : isPending r = true
        · simp only [hrp, if_true, List.length_cons]
          omega
        · simp only [hrp, if_false, Bool.false_eq_true]
          exact ht

theorem claim_next_eq_some (db : List QueueRow) (now : Nat) (r : QueueRow)
    (d1 : List QueueRow) (h : claim_next db now = (some r, d1)) :
    ∃ p, p ∈ db ∧ p.status = QStatus.PENDING ∧
      (∀ q ∈ db, q.status = QStatus.PENDING → betterRow q p = false) ∧
      r = { p with status := QStatus.PROCESSING, started_at := some now } ∧
      d1 = db.map (claimUpdate now p.id) := by
  unfold claim_next at h
  rcases hp : pickBest (db.filter isPending) with - | m
  · rw [hp] at h
    simp at h
  · rw [hp] at h
    obtain ⟨hmem, hmax⟩ := pickBest_eq_some _ _ hp
    have hmdb : m ∈ db := (List.mem_filter.mp hmem).1
    have hmp : m.status = QStatus.PENDING :=
      (isPending_iff m).mp (List.mem_filter.mp hmem).2
    rw [Prod.mk.injEq] at h
    obtain ⟨h1, h2⟩ := h
    refine ⟨m, hmdb, hmp, ?_, (Option.some.inj h1).symm, h2.symm⟩
    intro q hq hqp
    exact hmax q (List.mem_filter.mpr ⟨hq, (isPending_iff q).mpr hqp⟩)

theorem claim_next_of_pending (db : List QueueRow) (now : Nat)
    (h : 0 < pendingCount db) :
    ∃ r d1, claim_next db now = (some r, d1) := by
  have hne : db.filter isPending ≠ [] := by
    intro he
    unfold pendingCount at h
    rw [he] at h
    simp at h
  rcases hfe : db.filter isPending with - | ⟨r, t⟩
  · exact absurd hfe hne
  · refine ⟨{ (pickBestAux r t) with
        status := QStatus.PROCESSING,
        started_at := some now },
      db.map (claimUpdate now (pickBestAux r t).id), ?_⟩
    unfold claim_next
    rw [hfe]
    rfl

theorem claim_next_keeps_processing (db : List QueueRow) (now i : Nat)
    (h : ∀ s ∈ db, s.id = i → s.status = QStatus.PROCESSING) :
    ∀ s ∈ (claim_next db now).2, s.id = i → s.status = QStatus.PROCESSING := by
  unfold claim_next
  rcases hp : pickBest (db.filter isPending) with - | m
  · simpa using h
  · simp only
    intro s hs hid
    obtain ⟨s0, hs0, rfl⟩ := List.mem_map.mp hs
    rw [claimUpdate_id] at hid
    have hproc := h s0 hs0 hid
    rw [claimUpdate_keep now m.id s0 (by rw [hproc]; intro hc; cases hc)]
    exact hproc

theorem claim_next_pending_mem (db : List QueueRow) (now : Nat) :
    ∀ s ∈ (claim_next db now).2, s.status = QStatus.PENDING → s ∈ db := by
  unfold claim_next
  rcases hp : pickBest (db.filter isPending) with - | m
  · intro s hs _
    exact hs
  · simp only
    intro s hs hsp
    obtain ⟨s0, hs0, rfl⟩ := List.mem_map.mp hs
    have : claimUpdate now m.id s0 = s0 ∨
        (claimUpdate now m.id s0).status = QStatus.PROCESSING := by
      unfold claimUpdate
      split
      · right; rfl
      · left; rfl
    rcases this with he | hpr
    · rw [he]
      exact hs0
    · rw [hpr] at hsp
      cases hsp

theorem claim_target_processing (db : List QueueRow) (now : Nat) (p : QueueRow)
    (hnodup : (db.map (fun r => r.id)).Nodup) (hin : p ∈ db)
    (hp : p.status = QStatus.PENDING) :
    ∀ s ∈ db.map (claimUpdate now p.id), s.id = p.id →
      s.status = QStatus.PROCESSING := by
  intro s hs hid
  obtain ⟨s0, hs0, rfl⟩ := List.mem_map.mp hs
  rw [claimUpdate_id] at hid
  have hs0p : s0 = p := nodup_id_inj db hnodup s0 hs0 p hin hid
  subst hs0p
  unfold claimUpdate
  rw [if_pos ⟨rfl, hp⟩]

theorem claimMany_keeps_processing (now : Nat) :
    ∀ (N : Nat) (db : List QueueRow) (i : Nat),
      (∀ s ∈ db, s.id = i → s.status = QStatus.PROCESSING) →
      ∀ s ∈ (claimMany now N db).2, s.id = i → s.status = QStatus.PROCESSING := by
  intro N
  induction N with
  | zero => intro db i h; simpa [claimMany] using h
  | succ N ih =>
      intro db i h
      rcases hcn : claim_next db now with ⟨o, db1⟩
      cases o with
      | none =>
          simp only [claimMany, hcn]
          exact h
      | some r =>
          simp only [claimMany, hcn]
          have h1 : ∀ s ∈ db1, s.id = i → s.status = QStatus.PROCESSING := by
            have h2 := claim_next_keeps_processing db now i h
            rw [hcn] at h2
            exact h2
          exact ih db1 i h1

theorem claimMany_spec (now : Nat) :
    ∀ (N : Nat) (db : List QueueRow),
      (db.map (fun r => r.id)).Nodup →
      N ≤ pendingCount db →
      (claimMany now N db).1.length = N ∧
      ((claimMany now N db).1.map (fun r => r.id)).Nodup ∧
      (∀ r ∈ (claimMany now N db).1,
        r.status = QStatus.PROCESSING ∧ r.started_at = some now ∧
        ∃ p ∈ db, p.id = r.id ∧ p.status = QStatus.PENDING) ∧
      (∀ r ∈ (claimMany now N db).1, ∀ s ∈ (claimMany now N db).2,
        s.id = r.id → s.status = QStatus.PROCESSING) := by
  intro N
  induction N with
  | zero =>
      intro db hnodup hN
      refine ⟨rfl, by simp [claimMany], ?_, ?_⟩
      · intro r hr
        simp [claimMany] at hr
      · intro r hr
        simp [claimMany] at hr
  | succ N ih =>
      intro db hnodup hN
      have hpos : 0 < pendingCount db := by omega
      obtain ⟨r0, db1, hcn⟩ := claim_next_of_pending db now hpos
      obtain ⟨p, hpmem, hppend, hpmax, hr0, hdb1⟩ :=
        claim_next_eq_some db now r0 db1 hcn
      have hids : db1.map (fun r => r.id) = db.map (fun r => r.id) := by
        rw [hdb1]
        exact claim_ids_eq db now p.id
      have hnodup1 : (db1.map (fun r => r.id)).Nodup := by
        rw [hids]; exact hnodup
      have hpc1 : pendingCount db1 = pendingCount db - 1 := by
        rw [hdb1]
        exact pendingCount_claim db now p hnodup hpmem hppend
      have hN1 : N ≤ pendingCount db1 := by omega
      obtain ⟨ihlen, ihnodup, ihmem, ihfin⟩ := ih db1 hnodup1 hN1
      have hstep : claimMany now (N + 1) db =
          (r0 :: (claimMany now N db1).1, (claimMany now N db1).2) := by
        simp only [claimMany, hcn]
      have htarget : ∀ s ∈ db1, s.id = p.id → s.status = QStatus.PROCESSING := by
        rw [hdb1]
        exact claim_target_processing db now p hnodup hpmem hppend
      have hr0id : r0.id = p.id := by rw [hr0]
      rw [hstep]
      refine ⟨?_, ?_, ?_, ?_⟩
      · simp [ihlen]
      · rw [List.map_cons, List.nodup_cons]
        refine ⟨?_, ihnodup⟩
        intro hmem
        obtain ⟨r1, hr1, hid1⟩ := List.mem_map.mp hmem
        obtain ⟨-, -, p1, hp1mem, hp1id, hp1pend⟩ := ihmem r1 hr1
        have hproc : p1.status = QStatus.PROCESSING :=
          htarget p1 hp1mem (by rw [hp1id, hid1, hr0id])
        rw [hp1pend] at hproc
        cases hproc
      · intro r hr
        rcases List.mem_cons.mp hr with rfl | hr2
        · refine ⟨?_, ?_, p, hpmem, hr0id.symm, hppend⟩
          · rw [hr0]
          · rw [hr0]
        · obtain ⟨hst, hsa, p1, hp1mem, hp1id, hp1pend⟩ := ihmem r hr2
          refine ⟨hst, hsa, p1, ?_, hp1id, hp1pend⟩
          have hlift := claim_next_pending_mem db now
          rw [hcn] at hlift
          exact hlift p1 hp1mem hp1pend
      · intro r hr s hs hsid
        rcases List.mem_cons.mp hr with rfl | hr2
        · exact claimMany_keeps_processing now N db1 p.id htarget s hs
            (by rw [hsid, hr0id])
        · exact ihfin r hr2 s hs hsid

/-- C5: claim-next, modelled from the spec as a single atomic conditional
state transition (no claim-next operation exists under `src/`): N claims
against a table of rows with distinct ids and at least N PENDING items —
any concurrent execution of N workers being some sequence of N atomic
steps — yield N distinct items, each formerly PENDING, each transitioned
to PROCESSING with `started_at` stamped, and each still PROCESSING in the
final table (claimed exactly once, never by two workers); moreover every
successful claim returns the first item under (priority descending,
`created_at` ascending) among the PENDING items at call time. -/
theorem claim_next_concurrent (now N : Nat) (db : List QueueRow)
    (hnodup : (db.map (fun r => r.id)).Nodup)
    (hM : N ≤ pendingCount db) :
    ((claimMany now N db).1.length = N ∧
      ((claimMany now N db).1.map (fun r => r.id)).Nodup ∧
      (∀ r ∈ (claimMany now N db).1,
        r.status = QStatus.PROCESSING ∧ r.started_at = some now ∧
        ∃ p ∈ db, p.id = r.id ∧ p.status = QStatus.PENDING) ∧
      (∀ r ∈ (claimMany now N db).1, ∀ s ∈ (claimMany now N db).2,
        s.id = r.id → s.status = QStatus.PROCESSING)) ∧
    (∀ (d : List QueueRow) (r : QueueRow) (d1 : List QueueRow),
      claim_next d now = (some r, d1) →
      ∃ p ∈ d, p.status = QStatus.PENDING ∧
        r = { p with status := QStatus.PROCESSING, started_at := some now } ∧
        ∀ q ∈ d, q.status = QStatus.PENDING → betterRow q p = false) :=
  ⟨claimMany_spec now N db hnodup hM,
    fun d r d1 h => by
      obtain ⟨p, hp1, hp2, hp3, hp4, -⟩ := claim_next_eq_some d now r d1 h
      exact ⟨p, hp1, hp2, hp4, hp3⟩⟩

/-- Witness for C5: two claims against three PENDING rows with distinct
ids; the theorem yields two distinct claimed items. -/
theorem claim_next_concurrent_witness :
    (([⟨1, "a", QStatus.PENDING, 5, 0, 0, none, none⟩,
        ⟨2, "b", QStatus.PENDING, 1, 0, 1, none, none⟩,
        ⟨3, "c", QStatus.PENDING, 5, 0, 2, none, none⟩] : List QueueRow).map
          (fun r => r.id)).Nodup ∧
    2 ≤ pendingCount
        [⟨1, "a", QStatus.PENDING, 5, 0, 0, none, none⟩,
          ⟨2, "b", QStatus.PENDING, 1, 0, 1, none, none⟩,
          ⟨3, "c", QStatus.PENDING, 5, 0, 2, none, none⟩] ∧
    (claimMany 9 2
        [⟨1, "a", QStatus.PENDING, 5, 0, 0, none, none⟩,
          ⟨2, "b", QStatus.PENDING, 1, 0, 1, none, none⟩,
          ⟨3, "c", QStatus.PENDING, 5, 0, 2, none, none⟩]).1.length = 2 ∧
    ((claimMany 9 2
        [⟨1, "a", QStatus.PENDING, 5, 0, 0, none, none⟩,
          ⟨2, "b", QStatus.PENDING, 1, 0, 1, none, none⟩,
          ⟨3, "c", QStatus.PENDING, 5, 0, 2, none, none⟩]).1.map
          (fun r => r.id)).Nodup :=
  ⟨by decide, by decide,
    (claim_next_concurrent 9 2
        [⟨1, "a", QStatus.PENDING, 5, 0, 0, none, none⟩,
          ⟨2, "b", QStatus.PENDING, 1, 0, 1, none, none⟩,
          ⟨3, "c", QStatus.PENDING, 5, 0, 2, none, none⟩]
        (by decide) (by decide)).1.1,
    (claim_next_concurrent 9 2
        [⟨1, "a", QStatus.PENDING, 5, 0, 0, none, none⟩,
          ⟨2, "b", QStatus.PENDING, 1, 0, 1, none, none⟩,
          ⟨3, "c", QStatus.PENDING, 5, 0, 2, none, none⟩]
        (by decide) (by decide)).1.2.1⟩

end KnowledgeTools
